import Mathlib

/-!
# Verification of the BiteSpeed identity-reconciliation service

A shallow embedding of `src/services/contact.service.ts`.  The Postgres
contact table is modelled as a `Store`: a list of `Contact` records kept in
insertion order (ids are assigned monotonically from `nextId`, so the list is
id-ascending for well-formed stores), plus the next id to assign.  Timestamps
are natural numbers; `identifyContact` receives the database clock `now` as an
explicit argument.  The `updatedAt`/`deletedAt` columns are omitted: the
service logic never reads them.

JavaScript truthiness matters in the source (`if (email)` treats both `null`
and the empty string as absent), so provided values are `Option String` and
`truthy` captures the `if (email)` test, while `Option.isSome` captures the
`email !== null` test used by the new-information check.

`Array.prototype.sort` in JavaScript is stable and the source's comparator
orders by `createdAt` only; Prisma's `orderBy: { createdAt: "asc" }` is
likewise modelled as a stable sort of the store list (ties keep insertion
order, i.e. ascending id for well-formed stores).  `sortByCreated` is a stable
insertion sort implementing exactly that.
-/

inductive Precedence where
  | primary
  | secondary
deriving DecidableEq, Repr

structure Contact where
  id : Nat
  phoneNumber : Option String
  email : Option String
  linkedId : Option Nat
  linkPrecedence : Precedence
  createdAt : Nat
deriving DecidableEq, Repr

structure Store where
  contacts : List Contact
  nextId : Nat
deriving DecidableEq, Repr

def Store.empty : Store := ⟨[], 1⟩

/-- JavaScript truthiness of a nullable string: `null` and `""` are falsy. -/
def truthy : Option String → Bool
  | none => false
  | some s => !(s == "")

/-- Models `prisma.contact.findUnique({ where: { id } })`. -/
def findById (s : Store) (i : Nat) : Option Contact :=
  s.contacts.find? (fun c => c.id == i)

/-- Stable insertion of a contact into a createdAt-sorted list: the new
element goes after every element whose `createdAt` is `≤` its own, matching
the stability of both JavaScript sort and the database ordering. -/
def insertByCreated (c : Contact) : List Contact → List Contact
  | [] => [c]
  | x :: xs => if x.createdAt ≤ c.createdAt then x :: insertByCreated c xs else c :: x :: xs

/-- Stable sort by `createdAt` ascending (models `orderBy: { createdAt: "asc" }`
and the JavaScript comparator `(a, b) => a.createdAt - b.createdAt`). -/
def sortByCreated (l : List Contact) : List Contact :=
  l.foldl (fun acc c => insertByCreated c acc) []

/-- The `where` clause of the initial match query: OR of an email clause and a
phone clause, each present only when the corresponding input is truthy
(`if (email) conditions.push({ email })`).  An empty OR matches nothing. -/
def matchesInput (email phone : Option String) (c : Contact) : Bool :=
  (truthy email && c.email == email) || (truthy phone && c.phoneNumber == phone)

/-- Models `prisma.contact.findMany({ where: { OR: conditions }, orderBy: { createdAt: "asc" } })`. -/
def matchingContacts (s : Store) (email phone : Option String) : List Contact :=
  sortByCreated (s.contacts.filter (matchesInput email phone))

/-- The source's `findPrimaryContact`: follow `linkedId` upward until a record with
`linkedId = null` is reached; if a referenced parent is missing, stop at the
last resolvable record.  The source's `while` loop is embedded with explicit
fuel; `identifyContact` supplies fuel `s.contacts.length`, which suffices for
every acyclic store (proved below). -/
def findPrimaryContact (s : Store) : Nat → Contact → Contact
  | 0, c => c
  | fuel + 1, c =>
    match c.linkedId with
    | none => c
    | some pid =>
      match findById s pid with
      | none => c
      | some parent => findPrimaryContact s fuel parent

/-- The `primarySet` map: resolve each matched contact to its root primary and
deduplicate by id, keeping first-insertion order (JavaScript `Map` semantics). -/
def collectPrimaries (s : Store) (acc : List Contact) : List Contact → List Contact
  | [] => acc
  | c :: rest =>
    let p := findPrimaryContact s s.contacts.length c
    if acc.any (fun q => q.id == p.id) then collectPrimaries s acc rest
    else collectPrimaries s (acc ++ [p]) rest

/-- Models `[...primarySet.values()].sort((a, b) => a.createdAt - b.createdAt)`:
the distinct resolved primaries, stably sorted by `createdAt` only. -/
def resolvedPrimaries (s : Store) (email phone : Option String) : List Contact :=
  sortByCreated (collectPrimaries s [] (matchingContacts s email phone))

/-- Models `prisma.contact.update`: demote the record with the given id to secondary
under `canonicalId`. -/
def demoteContact (s : Store) (i canonicalId : Nat) : Store :=
  { s with contacts := s.contacts.map fun c =>
      if c.id == i then { c with linkedId := some canonicalId, linkPrecedence := .secondary }
      else c }

/-- Models `prisma.contact.updateMany`: repoint every record whose `linkedId` equals
`oldParent` to `newParent`. -/
def repointChildren (s : Store) (oldParent newParent : Nat) : Store :=
  { s with contacts := s.contacts.map fun c =>
      if c.linkedId == some oldParent then { c with linkedId := some newParent }
      else c }

/-- The merge loop (`for (let i = 1; i < primaries.length; i++)`): demote each
non-canonical primary and repoint its children, in order. -/
def mergeOthers (canonicalId : Nat) (s : Store) (others : List Contact) : Store :=
  others.foldl (fun st o => repointChildren (demoteContact st o.id canonicalId) o.id canonicalId) s

/-- Models `prisma.contact.create`: append a fresh record with the next id and the
database clock as `createdAt`. -/
def createContact (s : Store) (email phone : Option String) (lid : Option Nat)
    (prec : Precedence) (now : Nat) : Store × Contact :=
  let c : Contact :=
    { id := s.nextId, phoneNumber := phone, email := email, linkedId := lid,
      linkPrecedence := prec, createdAt := now }
  ({ contacts := s.contacts ++ [c], nextId := s.nextId + 1 }, c)

/-- The reload of the full group for the new-information check:
`findMany({ where: { OR: [{ id: canonical.id }, { linkedId: canonical.id }] } })`. -/
def allLinked (s : Store) (pid : Nat) : List Contact :=
  s.contacts.filter (fun c => c.id == pid || c.linkedId == some pid)

/-- Models `allLinked.map(c => c.email).filter(Boolean)`: the distinct non-null,
non-empty emails of a record list (membership is all that is used of the set). -/
def existingEmails (l : List Contact) : List String :=
  (l.filterMap (fun c => c.email)).filter (fun e => !(e == ""))

/-- Models `allLinked.map(c => c.phoneNumber).filter(Boolean)`. -/
def existingPhones (l : List Contact) : List String :=
  (l.filterMap (fun c => c.phoneNumber)).filter (fun e => !(e == ""))

/-- Models `email !== null && !existingEmails.has(email)`. -/
def hasNewEmail (email : Option String) (l : List Contact) : Bool :=
  match email with
  | none => false
  | some e => !((existingEmails l).contains e)

/-- Models `phoneNumber !== null && !existingPhones.has(phoneNumber)`. -/
def hasNewPhone (phone : Option String) (l : List Contact) : Bool :=
  match phone with
  | none => false
  | some p => !((existingPhones l).contains p)

structure IdentifyResponse where
  primaryContatctId : Nat
  emails : List String
  phoneNumbers : List String
  secondaryContactIds : List Nat
deriving DecidableEq, Repr

/-- The email accumulation loop of `buildResponse`:
`if (sc.email && !emails.includes(sc.email)) emails.push(sc.email)`. -/
def collectEmails (acc : List String) : List Contact → List String
  | [] => acc
  | c :: rest =>
    match c.email with
    | some e =>
      if !(e == "") && !(acc.contains e) then collectEmails (acc ++ [e]) rest
      else collectEmails acc rest
    | none => collectEmails acc rest

/-- The phone accumulation loop of `buildResponse`. -/
def collectPhones (acc : List String) : List Contact → List String
  | [] => acc
  | c :: rest =>
    match c.phoneNumber with
    | some p =>
      if !(p == "") && !(acc.contains p) then collectPhones (acc ++ [p]) rest
      else collectPhones acc rest
    | none => collectPhones acc rest

/-- The secondaries of a primary, ordered by creation:
`findMany({ where: { linkedId: primary.id }, orderBy: { createdAt: "asc" } })`. -/
def secondariesOf (s : Store) (pid : Nat) : List Contact :=
  sortByCreated (s.contacts.filter (fun c => c.linkedId == some pid))

/-- The source's `buildResponse`: primary's own truthy values first, then each secondary's
id, and its email/phone when truthy and not already present. -/
def buildResponse (s : Store) (p : Contact) : IdentifyResponse :=
  let secondaries := secondariesOf s p.id
  { primaryContatctId := p.id
    emails := collectEmails (if truthy p.email then [p.email.getD ""] else []) secondaries
    phoneNumbers := collectPhones (if truthy p.phoneNumber then [p.phoneNumber.getD ""] else []) secondaries
    secondaryContactIds := secondaries.map (fun c => c.id) }

/-- The source's `identifyContact`: the full reconciliation flow.  Returns the store after
the call together with the response.  The `[]` branch of the match is dead
code: the primaries list is never empty when at least one contact matched. -/
def identifyContact (s : Store) (email phone : Option String) (now : Nat) :
    Store × IdentifyResponse :=
  let matching := matchingContacts s email phone
  if matching.isEmpty then
    let created := createContact s email phone none .primary now
    (created.1, buildResponse created.1 created.2)
  else
    match resolvedPrimaries s email phone with
    | [] => (s, ⟨0, [], [], []⟩)
    | canonical :: others =>
      let s1 := mergeOthers canonical.id s others
      let linked := allLinked s1 canonical.id
      let s2 :=
        if hasNewEmail email linked || hasNewPhone phone linked then
          (createContact s1 email phone (some canonical.id) .secondary now).1
        else s1
      (s2, buildResponse s2 canonical)

/-! ## Well-formedness and the group invariants -/

/-- Store well-formedness: ids strictly increase along the list (so they are
unique and the list is in creation order), and both ids and link targets are
below `nextId`. -/
def StoreWF (s : Store) : Prop :=
  s.contacts.Pairwise (fun a b => a.id < b.id) ∧
  (∀ c ∈ s.contacts, c.id < s.nextId) ∧
  (∀ c ∈ s.contacts, ∀ pid, c.linkedId = some pid → pid < s.nextId)

/-- The group invariants of the spec: a record is primary iff it has no
parent link, and every parent link points at an existing record that is
itself a root and is no younger than the child (flat, one level deep, with
the primary the earliest-created record of its group). -/
def GroupInv (s : Store) : Prop :=
  ∀ c ∈ s.contacts,
    ((c.linkPrecedence = .primary) ↔ c.linkedId = none) ∧
    (∀ pid, c.linkedId = some pid →
      ∃ p, p ∈ s.contacts ∧ p.id = pid ∧ p.linkedId = none ∧ p.createdAt ≤ c.createdAt)

/-- The stricter invariant claimed by the spec's tie-break clause: the parent
is earlier-created with ties broken by lower id. -/
def GroupInvTie (s : Store) : Prop :=
  GroupInv s ∧
  ∀ c ∈ s.contacts, ∀ pid, c.linkedId = some pid →
    ∀ p ∈ s.contacts, p.id = pid →
      p.createdAt < c.createdAt ∨ (p.createdAt = c.createdAt ∧ p.id < c.id)

instance (s : Store) : Decidable (StoreWF s) := by
  unfold StoreWF; infer_instance

instance (s : Store) : Decidable (GroupInv s) := by
  unfold GroupInv; infer_instance

instance (s : Store) : Decidable (GroupInvTie s) := by
  unfold GroupInvTie; infer_instance

/-! ## Sorting lemmas -/

/-- Creation order with the id tie-break: the order the spec calls
"ascending creation order" (ids are assigned monotonically). -/
def CreatedBefore (a b : Contact) : Prop :=
  a.createdAt < b.createdAt ∨ (a.createdAt = b.createdAt ∧ a.id < b.id)

theorem insertByCreated_perm (c : Contact) (l : List Contact) :
    (insertByCreated c l).Perm (c :: l) := by
  induction l with
  | nil => simp [insertByCreated]
  | cons x xs ih =>
    simp only [insertByCreated]
    split
    · exact ((ih.cons x).trans (List.Perm.swap c x xs))
    · exact List.Perm.refl _

theorem foldl_insertByCreated_perm (l acc : List Contact) :
    (l.foldl (fun a c => insertByCreated c a) acc).Perm (acc ++ l) := by
  induction l generalizing acc with
  | nil => simp
  | cons c rest ih =>
    simp only [List.foldl_cons]
    refine (ih (insertByCreated c acc)).trans ?_
    have h1 : (insertByCreated c acc ++ rest).Perm ((c :: acc) ++ rest) :=
      (insertByCreated_perm c acc).append_right rest
    refine h1.trans ?_
    simp only [List.cons_append]
    exact (List.perm_middle).symm

theorem sortByCreated_perm (l : List Contact) : (sortByCreated l).Perm l := by
  simpa [sortByCreated] using foldl_insertByCreated_perm l []

theorem mem_sortByCreated {x : Contact} {l : List Contact} :
    x ∈ sortByCreated l ↔ x ∈ l :=
  (sortByCreated_perm l).mem_iff

theorem insertByCreated_sorted (c : Contact) (l : List Contact)
    (hl : l.Pairwise (fun a b => a.createdAt ≤ b.createdAt)) :
    (insertByCreated c l).Pairwise (fun a b => a.createdAt ≤ b.createdAt) := by
  induction l with
  | nil => simp [insertByCreated]
  | cons x xs ih =>
    rw [List.pairwise_cons] at hl
    simp only [insertByCreated]
    split
    · rename_i hle
      rw [List.pairwise_cons]
      refine ⟨?_, ih hl.2⟩
      intro b hb
      rcases List.mem_cons.mp ((insertByCreated_perm c xs).mem_iff.mp hb) with h | h
      · exact h ▸ hle
      · exact hl.1 b h
    · rename_i hgt
      push_neg at hgt
      rw [List.pairwise_cons]
      refine ⟨?_, List.pairwise_cons.mpr hl⟩
      intro b hb
      rcases List.mem_cons.mp hb with h | h
      · exact h ▸ le_of_lt hgt
      · exact le_trans (le_of_lt hgt) (hl.1 b h)

theorem sortByCreated_sorted (l : List Contact) :
    (sortByCreated l).Pairwise (fun a b => a.createdAt ≤ b.createdAt) := by
  suffices h : ∀ acc, acc.Pairwise (fun a b => a.createdAt ≤ b.createdAt) →
      (l.foldl (fun a c => insertByCreated c a) acc).Pairwise
        (fun a b => a.createdAt ≤ b.createdAt) by
    simpa [sortByCreated] using h [] (by simp)
  induction l with
  | nil => intro acc hacc; simpa using hacc
  | cons c rest ih =>
    intro acc hacc
    simp only [List.foldl_cons]
    exact ih _ (insertByCreated_sorted c acc hacc)

theorem insertByCreated_lex (c : Contact) (l : List Contact)
    (hl : l.Pairwise CreatedBefore) (hid : ∀ x ∈ l, x.id < c.id) :
    (insertByCreated c l).Pairwise CreatedBefore := by
  induction l with
  | nil => simp [insertByCreated]
  | cons x xs ih =>
    rw [List.pairwise_cons] at hl
    simp only [insertByCreated]
    split
    · rename_i hle
      rw [List.pairwise_cons]
      refine ⟨?_, ih hl.2 (fun y hy => hid y (List.mem_cons_of_mem x hy))⟩
      intro b hb
      rcases List.mem_cons.mp ((insertByCreated_perm c xs).mem_iff.mp hb) with h | h
      · subst h
        rcases Nat.lt_or_ge x.createdAt b.createdAt with hlt | hge
        · exact Or.inl hlt
        · exact Or.inr ⟨Nat.le_antisymm hle hge, hid x (List.mem_cons_self x xs)⟩
      · exact hl.1 b h
    · rename_i hgt
      push_neg at hgt
      rw [List.pairwise_cons]
      refine ⟨?_, List.pairwise_cons.mpr hl⟩
      intro b hb
      rcases List.mem_cons.mp hb with h | h
      · exact Or.inl (h ▸ hgt)
      · rcases hl.1 b h with h2 | h2
        · exact Or.inl (Nat.lt_trans hgt h2)
        · exact Or.inl (h2.1 ▸ hgt)

theorem sortByCreated_lex (l : List Contact)
    (h : l.Pairwise (fun a b => a.id < b.id)) :
    (sortByCreated l).Pairwise CreatedBefore := by
  suffices key : ∀ acc, acc.Pairwise CreatedBefore →
      (∀ x ∈ acc, ∀ y ∈ l, x.id < y.id) →
      (l.foldl (fun a c => insertByCreated c a) acc).Pairwise CreatedBefore by
    simpa [sortByCreated] using key [] (by simp) (by simp)
  induction l with
  | nil => intro acc hacc _; simpa using hacc
  | cons c rest ih =>
    rw [List.pairwise_cons] at h
    intro acc hacc hlt
    simp only [List.foldl_cons]
    refine ih h.2 (insertByCreated c acc)
      (insertByCreated_lex c acc hacc
        (fun x hx => hlt x hx c (List.mem_cons_self c rest))) ?_
    intro x hx y hy
    rcases List.mem_cons.mp ((insertByCreated_perm c acc).mem_iff.mp hx) with h1 | h1
    · exact h1 ▸ h.1 y hy
    · exact hlt x h1 y (List.mem_cons_of_mem c hy)

/-! ## Store lookup lemmas -/

theorem pairwise_id_unique {l : List Contact}
    (hp : l.Pairwise (fun a b => a.id < b.id)) :
    ∀ a ∈ l, ∀ b ∈ l, a.id = b.id → a = b := by
  induction l with
  | nil => intro a ha; cases ha
  | cons x xs ih =>
    rw [List.pairwise_cons] at hp
    intro a ha b hb heq
    rcases List.mem_cons.mp ha with h1 | h1 <;> rcases List.mem_cons.mp hb with h2 | h2
    · exact h1.trans h2.symm
    · subst h1; exact absurd (heq ▸ hp.1 b h2) (Nat.lt_irrefl _)
    · subst h2; exact absurd (heq ▸ hp.1 a h1) (Nat.lt_irrefl _)
    · exact ih hp.2 a h1 b h2 heq

theorem wf_unique {s : Store} (hwf : StoreWF s) :
    ∀ a ∈ s.contacts, ∀ b ∈ s.contacts, a.id = b.id → a = b :=
  pairwise_id_unique hwf.1

theorem find_pairwise_of_mem {l : List Contact}
    (hp : l.Pairwise (fun a b => a.id < b.id)) {c : Contact} (hc : c ∈ l) :
    l.find? (fun x => x.id == c.id) = some c := by
  induction l with
  | nil => cases hc
  | cons x xs ih =>
    rw [List.pairwise_cons] at hp
    rcases List.mem_cons.mp hc with h1 | h1
    · subst h1; simp [List.find?_cons]
    · have hne : (x.id == c.id) = false := by
        simp only [beq_eq_false_iff_ne, ne_eq]
        exact fun h => absurd (h ▸ hp.1 c h1) (Nat.lt_irrefl _)
      simp only [List.find?_cons, hne]
      exact ih hp.2 h1

theorem findById_of_mem {s : Store} (hwf : StoreWF s) {c : Contact}
    (hc : c ∈ s.contacts) : findById s c.id = some c :=
  find_pairwise_of_mem hwf.1 hc

theorem findById_some {s : Store} {i : Nat} {c : Contact}
    (h : findById s i = some c) : c ∈ s.contacts ∧ c.id = i := by
  unfold findById at h
  exact ⟨List.mem_of_find?_eq_some h, by simpa using List.find?_some h⟩

theorem findById_none {s : Store} {i : Nat}
    (h : ∀ c ∈ s.contacts, c.id ≠ i) : findById s i = none := by
  unfold findById
  rw [List.find?_eq_none]
  intro c hc
  simpa using h c hc

/-! ## Root resolution lemmas -/

theorem findPrimaryContact_of_root {s : Store} {c : Contact}
    (hc : c.linkedId = none) (fuel : Nat) : findPrimaryContact s fuel c = c := by
  cases fuel with
  | zero => rfl
  | succ n => simp [findPrimaryContact, hc]

/-- Under the flat-group invariant, one step of resolution reaches the root:
`findPrimaryContact` returns a root record of the store that is the contact
itself or its direct parent, and is no younger. -/
theorem findPrimaryContact_resolve {s : Store} (hwf : StoreWF s) (hinv : GroupInv s)
    {c : Contact} (hc : c ∈ s.contacts) {fuel : Nat} (hfuel : 1 ≤ fuel) :
    ∃ r, findPrimaryContact s fuel c = r ∧ r ∈ s.contacts ∧ r.linkedId = none ∧
      (r = c ∨ c.linkedId = some r.id) ∧ r.createdAt ≤ c.createdAt := by
  obtain ⟨n, rfl⟩ : ∃ n, fuel = n + 1 := ⟨fuel - 1, by omega⟩
  cases hlid : c.linkedId with
  | none =>
    exact ⟨c, by simp [findPrimaryContact, hlid], hc, hlid, Or.inl rfl, Nat.le_refl _⟩
  | some pid =>
    obtain ⟨p, hpmem, hpid, hproot, hpage⟩ := ((hinv c hc).2 pid hlid)
    have hfind : findById s pid = some p := hpid ▸ findById_of_mem hwf hpmem
    refine ⟨p, ?_, hpmem, hproot, Or.inr (congrArg some hpid.symm), hpage⟩
    simp [findPrimaryContact, hlid, hfind, findPrimaryContact_of_root hproot]

/-! ## Primary collection lemmas -/

theorem collectPrimaries_grow (s : Store) (acc l : List Contact) :
    ∃ ext, collectPrimaries s acc l = acc ++ ext := by
  induction l generalizing acc with
  | nil => exact ⟨[], by simp [collectPrimaries]⟩
  | cons c rest ih =>
    simp only [collectPrimaries]
    split
    · exact ih acc
    · obtain ⟨ext, hext⟩ := ih (acc ++ [findPrimaryContact s s.contacts.length c])
      exact ⟨findPrimaryContact s s.contacts.length c :: ext, by simpa using hext⟩

theorem collectPrimaries_ne_nil (s : Store) {l : List Contact} (hl : l ≠ []) :
    collectPrimaries s [] l ≠ [] := by
  cases l with
  | nil => exact absurd rfl hl
  | cons c rest =>
    simp only [collectPrimaries, List.any_nil, List.nil_append]
    obtain ⟨ext, hext⟩ := collectPrimaries_grow s [findPrimaryContact s s.contacts.length c] rest
    simp [hext]

theorem collectPrimaries_all {s : Store} (Q : Contact → Prop) {acc l : List Contact}
    (hacc : ∀ x ∈ acc, Q x)
    (hl : ∀ c ∈ l, Q (findPrimaryContact s s.contacts.length c)) :
    ∀ x ∈ collectPrimaries s acc l, Q x := by
  induction l generalizing acc with
  | nil => simpa [collectPrimaries] using hacc
  | cons c rest ih =>
    simp only [collectPrimaries]
    split
    · exact ih hacc (fun d hd => hl d (List.mem_cons_of_mem c hd))
    · refine ih ?_ (fun d hd => hl d (List.mem_cons_of_mem c hd))
      intro x hx
      rcases List.mem_append.mp hx with h | h
      · exact hacc x h
      · rw [List.mem_singleton.mp h]
        exact hl c (List.mem_cons_self c rest)

theorem collectPrimaries_nodup_ids {s : Store} {acc l : List Contact}
    (hacc : (acc.map (fun c => c.id)).Nodup) :
    ((collectPrimaries s acc l).map (fun c => c.id)).Nodup := by
  induction l generalizing acc with
  | nil => simpa [collectPrimaries] using hacc
  | cons c rest ih =>
    simp only [collectPrimaries]
    split
    · exact ih hacc
    · rename_i hany
      simp only [List.any_eq_true, beq_iff_eq, not_exists, not_and] at hany
      refine ih ?_
      rw [List.map_append, List.map_singleton, List.nodup_append]
      refine ⟨hacc, List.nodup_singleton _, ?_⟩
      intro i hi
      simp only [List.mem_singleton]
      intro heq
      subst heq
      obtain ⟨q, hq, hqid⟩ := List.mem_map.mp hi
      exact hany q hq hqid

theorem collectPrimaries_const {s : Store} {C : Contact} {l : List Contact}
    (hl : ∀ c ∈ l, findPrimaryContact s s.contacts.length c = C) :
    collectPrimaries s [C] l = [C] := by
  induction l with
  | nil => rfl
  | cons c rest ih =>
    simp only [collectPrimaries, hl c (List.mem_cons_self c rest)]
    simp only [List.any_cons, List.any_nil, beq_self_eq_true, Bool.or_false,
      Bool.true_or, if_true]
    exact ih (fun d hd => hl d (List.mem_cons_of_mem c hd))

theorem collectPrimaries_singleton {s : Store} {C : Contact} {c : Contact} {rest : List Contact}
    (hl : ∀ d ∈ c :: rest, findPrimaryContact s s.contacts.length d = C) :
    collectPrimaries s [] (c :: rest) = [C] := by
  have hstep : collectPrimaries s [] (c :: rest) =
      collectPrimaries s [findPrimaryContact s s.contacts.length c] rest := by
    simp [collectPrimaries]
  rw [hstep, hl c (List.mem_cons_self c rest)]
  exact collectPrimaries_const (fun d hd => hl d (List.mem_cons_of_mem c hd))

/-! ## Merge characterization -/

/-- One iteration of the merge loop as a function on records: demote the
record with id `oid`, then repoint records whose parent is `oid` to `cid`. -/
def stepFun (oid cid : Nat) (r : Contact) : Contact :=
  let d := if r.id == oid then { r with linkedId := some cid, linkPrecedence := .secondary } else r
  if d.linkedId == some oid then { d with linkedId := some cid } else d

/-- The net effect of the whole merge loop on a single record, given the ids
of the demoted primaries: roots in `osIds` are demoted under `cid`, their
children are repointed to `cid`, and everything else is untouched. -/
def mergeFun (cid : Nat) (osIds : List Nat) (r : Contact) : Contact :=
  if r.id ∈ osIds then { r with linkedId := some cid, linkPrecedence := .secondary }
  else
    match r.linkedId with
    | some pid => if pid ∈ osIds then { r with linkedId := some cid } else r
    | none => r

theorem step_contacts (s : Store) (oid cid : Nat) :
    (repointChildren (demoteContact s oid cid) oid cid).contacts =
      s.contacts.map (stepFun oid cid) ∧
    (repointChildren (demoteContact s oid cid) oid cid).nextId = s.nextId := by
  constructor
  · simp only [repointChildren, demoteContact, List.map_map]
    rfl
  · rfl

theorem mergeFun_nil (cid : Nat) (r : Contact) : mergeFun cid [] r = r := by
  unfold mergeFun
  cases h : r.linkedId <;> simp

theorem mergeFun_step (cid oid : Nat) (rids : List Nat) (r : Contact)
    (h1 : cid ≠ oid) (h2 : cid ∉ rids) (h3 : oid ∉ rids)
    (h4 : r.linkedId = some oid → r.id ∉ rids) :
    mergeFun cid rids (stepFun oid cid r) = mergeFun cid (oid :: rids) r := by
  by_cases hid : r.id = oid
  · have hstep : stepFun oid cid r =
        { r with linkedId := some cid, linkPrecedence := .secondary } := by
      simp [stepFun, hid, h1]
    rw [hstep]
    have hm : mergeFun cid (oid :: rids) r =
        { r with linkedId := some cid, linkPrecedence := .secondary } := by
      unfold mergeFun
      rw [if_pos (by simp [hid])]
    rw [hm]
    unfold mergeFun
    rw [if_neg (by simpa [hid] using h3)]
    simp [h2]
  · by_cases hlid : r.linkedId = some oid
    · have hstep : stepFun oid cid r = { r with linkedId := some cid } := by
        simp [stepFun, hid, hlid]
      rw [hstep]
      have hnid : r.id ∉ rids := h4 hlid
      have hm : mergeFun cid (oid :: rids) r = { r with linkedId := some cid } := by
        unfold mergeFun
        rw [if_neg (by simp [hid, hnid])]
        rw [hlid]
        simp
      rw [hm]
      unfold mergeFun
      rw [if_neg (by simpa using hnid)]
      simp [h2]
    · have hstep : stepFun oid cid r = r := by
        unfold stepFun
        by_cases hc : r.id = oid
        · exact absurd hc hid
        · simp [hc, hlid]
      rw [hstep]
      by_cases hrid : r.id ∈ rids
      · unfold mergeFun
        rw [if_pos hrid, if_pos (by simp [hrid])]
      · unfold mergeFun
        rw [if_neg hrid, if_neg (by simp [hid, hrid])]
        cases hl : r.linkedId with
        | none => rfl
        | some pid =>
          have hpid : pid ≠ oid := fun h => hlid (h ▸ hl)
          by_cases hp : pid ∈ rids
          · simp [hp]
          · simp [hp, hpid]

theorem stepFun_id (oid cid : Nat) (r : Contact) : (stepFun oid cid r).id = r.id := by
  simp only [stepFun]
  split <;> split <;> rfl

theorem mergeOthers_nil (cid : Nat) (s : Store) : mergeOthers cid s [] = s := rfl

theorem mergeOthers_cons (cid : Nat) (s : Store) (o : Contact) (rest : List Contact) :
    mergeOthers cid s (o :: rest) =
      mergeOthers cid (repointChildren (demoteContact s o.id cid) o.id cid) rest := rfl

theorem mergeOthers_length (cid : Nat) (os : List Contact) (s : Store) :
    (mergeOthers cid s os).contacts.length = s.contacts.length ∧
    (mergeOthers cid s os).nextId = s.nextId := by
  induction os generalizing s with
  | nil => exact ⟨rfl, rfl⟩
  | cons o rest ih =>
    rw [mergeOthers_cons]
    obtain ⟨hlen, hnext⟩ := ih (repointChildren (demoteContact s o.id cid) o.id cid)
    refine ⟨?_, ?_⟩
    · rw [hlen, (step_contacts s o.id cid).1, List.length_map]
    · rw [hnext, (step_contacts s o.id cid).2]

/-- The merge loop is a single map over the store: each non-canonical primary
is demoted and each of its children repointed, everything else untouched.
Hypotheses: distinct ids in the store, the others are roots present in the
store, and the canonical id is distinct from all demoted ids. -/
theorem mergeOthers_eq_map (cid : Nat) (os : List Contact) (s : Store)
    (huniq : ∀ a ∈ s.contacts, ∀ b ∈ s.contacts, a.id = b.id → a = b)
    (hos : ∀ o ∈ os, o ∈ s.contacts ∧ o.linkedId = none)
    (hcid : cid ∉ os.map (fun o => o.id))
    (hnodup : (os.map (fun o => o.id)).Nodup) :
    (mergeOthers cid s os).contacts =
      s.contacts.map (mergeFun cid (os.map (fun o => o.id))) := by
  induction os generalizing s with
  | nil =>
    rw [mergeOthers_nil]
    simp only [List.map_nil]
    exact (List.map_congr_left (fun r _ => (mergeFun_nil cid r).symm)).symm ▸
      (List.map_id s.contacts).symm ▸ rfl
  | cons o rest ih =>
    rw [mergeOthers_cons]
    set s' : Store := repointChildren (demoteContact s o.id cid) o.id cid with hs'
    have hstep := step_contacts s o.id cid
    simp only [List.map_cons] at hcid hnodup
    have hoid_rest : o.id ∉ rest.map (fun x => x.id) := by
      simpa using (List.nodup_cons.mp hnodup).1
    have hcid_oid : cid ≠ o.id := by
      intro h; exact hcid (h ▸ List.mem_cons_self _ _)
    have hcid_rest : cid ∉ rest.map (fun x => x.id) := by
      intro h; exact hcid (List.mem_cons_of_mem _ h)
    have huniq' : ∀ a ∈ s'.contacts, ∀ b ∈ s'.contacts, a.id = b.id → a = b := by
      intro a ha b hb heq
      rw [hstep.1] at ha hb
      obtain ⟨a0, ha0, rfl⟩ := List.mem_map.mp ha
      obtain ⟨b0, hb0, rfl⟩ := List.mem_map.mp hb
      rw [stepFun_id, stepFun_id] at heq
      rw [huniq a0 ha0 b0 hb0 heq]
    have hos' : ∀ p ∈ rest, p ∈ s'.contacts ∧ p.linkedId = none := by
      intro p hp
      obtain ⟨hpm, hproot⟩ := hos p (List.mem_cons_of_mem o hp)
      have hpne : p.id ≠ o.id := by
        intro h
        exact hoid_rest (h ▸ List.mem_map.mpr ⟨p, hp, rfl⟩)
      have hfix : stepFun o.id cid p = p := by
        unfold stepFun
        simp [hpne, hproot]
      refine ⟨?_, hproot⟩
      rw [hstep.1]
      have : p ∈ s.contacts.map (stepFun o.id cid) := List.mem_map.mpr ⟨p, hpm, hfix⟩
      exact this
    have hrec := ih s' huniq' hos' hcid_rest (List.nodup_cons.mp hnodup).2
    rw [hrec, hstep.1, List.map_map]
    refine List.map_congr_left ?_
    intro r hr
    show mergeFun cid (rest.map fun x => x.id) (stepFun o.id cid r) =
      mergeFun cid (o.id :: rest.map fun x => x.id) r
    refine mergeFun_step cid o.id _ r hcid_oid hcid_rest hoid_rest ?_
    intro hlid hmem
    obtain ⟨q, hq, hqid⟩ := List.mem_map.mp hmem
    obtain ⟨hqm, hqroot⟩ := hos q (List.mem_cons_of_mem o hq)
    have : r = q := huniq r hr q hqm hqid.symm
    rw [this, hqroot] at hlid
    cases hlid

theorem mergeFun_id (cid : Nat) (osIds : List Nat) (r : Contact) :
    (mergeFun cid osIds r).id = r.id := by
  unfold mergeFun
  by_cases h : r.id ∈ osIds
  · simp [h]
  · simp only [h, if_false]
    cases hl : r.linkedId with
    | none => rfl
    | some pid => by_cases hp : pid ∈ osIds <;> simp [hp]

theorem secondary_of_linked {s : Store} (hinv : GroupInv s) {r : Contact}
    (hr : r ∈ s.contacts) {pid : Nat} (hlid : r.linkedId = some pid) :
    r.linkPrecedence = .secondary := by
  cases hp : r.linkPrecedence with
  | secondary => rfl
  | primary =>
    have := ((hinv r hr).1).mp hp
    rw [hlid] at this
    cases this

/-- After the merge loop the store still satisfies the group invariants and
well-formedness, and the canonical record is still present unchanged. -/
theorem groupInv_merge {s : Store} {c : Contact} {os : List Contact}
    (hwf : StoreWF s) (hinv : GroupInv s)
    (hc : c ∈ s.contacts) (hcroot : c.linkedId = none)
    (hos : ∀ o ∈ os, o ∈ s.contacts ∧ o.linkedId = none)
    (hcid : c.id ∉ os.map (fun o => o.id))
    (hnodup : (os.map (fun o => o.id)).Nodup)
    (hage : ∀ o ∈ os, c.createdAt ≤ o.createdAt) :
    GroupInv (mergeOthers c.id s os) ∧ StoreWF (mergeOthers c.id s os) ∧
      c ∈ (mergeOthers c.id s os).contacts := by
  have huniq := wf_unique hwf
  have hmap := mergeOthers_eq_map c.id os s huniq hos hcid hnodup
  have hnext := (mergeOthers_length c.id os s).2
  set osIds := os.map (fun o => o.id) with hosIds
  set F := mergeFun c.id osIds with hF
  have hFc : F c = c := by
    rw [hF]
    unfold mergeFun
    simp [hcid, hcroot]
  have hcmem : c ∈ (mergeOthers c.id s os).contacts := by
    rw [hmap]
    exact List.mem_map.mpr ⟨c, hc, hFc⟩
  -- characterize F on a record of the store
  have hchar : ∀ r ∈ s.contacts,
      (r.id ∈ osIds ∧ r.linkedId = none ∧ r.createdAt ≥ c.createdAt ∧
        F r = { r with linkedId := some c.id, linkPrecedence := .secondary }) ∨
      ((∃ pid, r.linkedId = some pid ∧ pid ∈ osIds ∧
        r.id ∉ osIds ∧ r.createdAt ≥ c.createdAt ∧
        F r = { r with linkedId := some c.id })) ∨
      (r.id ∉ osIds ∧ (∀ pid, r.linkedId = some pid → pid ∉ osIds) ∧ F r = r) := by
    intro r hr
    by_cases hid : r.id ∈ osIds
    · obtain ⟨o, ho, hoid⟩ := List.mem_map.mp hid
      obtain ⟨hom, horoot⟩ := hos o ho
      have hro : r = o := huniq r hr o hom hoid.symm
      refine Or.inl ⟨hid, hro ▸ horoot, ?_, ?_⟩
      · exact hro ▸ hage o ho
      · rw [hF]; unfold mergeFun; simp [hid]
    · cases hl : r.linkedId with
      | some pid =>
        by_cases hp : pid ∈ osIds
        · obtain ⟨o, ho, hoid⟩ := List.mem_map.mp hp
          obtain ⟨hom, horoot⟩ := hos o ho
          obtain ⟨p0, hp0m, hp0id, hp0root, hp0age⟩ := (hinv r hr).2 pid hl
          have hpo : p0 = o := huniq p0 hp0m o hom (hp0id.trans hoid.symm)
          refine Or.inr (Or.inl ⟨pid, rfl, hp, hid, ?_, ?_⟩)
          · have h1 : c.createdAt ≤ p0.createdAt := by rw [hpo]; exact hage o ho
            exact Nat.le_trans h1 hp0age
          · rw [hF]; unfold mergeFun; simp [hid, hl, hp]
        · refine Or.inr (Or.inr ⟨hid, ?_, ?_⟩)
          · intro pid1 hpid1
            obtain rfl : pid = pid1 := Option.some.inj hpid1
            exact hp
          · rw [hF]; unfold mergeFun; simp [hid, hl, hp]
      | none =>
        refine Or.inr (Or.inr ⟨hid, ?_, ?_⟩)
        · intro pid hpid; exact Option.noConfusion hpid
        · rw [hF]; unfold mergeFun; simp [hid, hl]
  refine ⟨?_, ⟨?_, ?_, ?_⟩, hcmem⟩
  · -- GroupInv
    intro r' hr'
    rw [hmap] at hr'
    obtain ⟨r, hr, rfl⟩ := List.mem_map.mp hr'
    rcases hchar r hr with ⟨hid, hroot, hage', hFr⟩ | ⟨pid, hl, hp, hid, hage', hFr⟩ |
      ⟨hid, hnp, hFr⟩
    · rw [hFr]
      constructor
      · constructor
        · intro h; cases h
        · intro h; cases h
      · intro pid hpid
        simp only at hpid
        cases hpid
        exact ⟨c, hcmem, rfl, hcroot, hage'⟩
    · rw [hFr]
      have hsec := secondary_of_linked hinv hr hl
      constructor
      · constructor
        · intro h; simp only at h; rw [hsec] at h; cases h
        · intro h; cases h
      · intro pid' hpid'
        simp only at hpid'
        cases hpid'
        refine ⟨c, ?_, rfl, hcroot, hage'⟩
        rw [hmap]
        exact List.mem_map.mpr ⟨c, hc, hFc⟩
    · rw [hFr]
      refine ⟨(hinv r hr).1, ?_⟩
      intro pid hpid
      obtain ⟨p0, hp0m, hp0id, hp0root, hp0age⟩ := (hinv r hr).2 pid hpid
      have hFp0 : F p0 = p0 := by
        rcases hchar p0 hp0m with ⟨hid0, _, _, _⟩ | ⟨pid0, hl0, _, _, _, _⟩ | ⟨_, _, hFp⟩
        · exact absurd (hp0id ▸ hid0) (hp0id ▸ (hnp pid hpid))
        · rw [hp0root] at hl0; cases hl0
        · exact hFp
      refine ⟨p0, ?_, hp0id, hp0root, hp0age⟩
      rw [hmap]
      exact List.mem_map.mpr ⟨p0, hp0m, hFp0⟩
  · -- Pairwise ids
    rw [hmap]
    rw [List.pairwise_map]
    exact hwf.1.imp (by intro a b h; rwa [mergeFun_id, mergeFun_id])
  · -- id bound
    intro r' hr'
    rw [hmap] at hr'
    obtain ⟨r, hr, rfl⟩ := List.mem_map.mp hr'
    rw [hnext, mergeFun_id]
    exact hwf.2.1 r hr
  · -- link bound
    intro r' hr' pid hpid
    rw [hmap] at hr'
    obtain ⟨r, hr, rfl⟩ := List.mem_map.mp hr'
    rw [hnext]
    rcases hchar r hr with ⟨_, _, _, hFr⟩ | ⟨pid0, _, _, _, _, hFr⟩ | ⟨_, _, hFr⟩
    · rw [hFr] at hpid
      simp only at hpid
      cases hpid
      exact hwf.2.1 c hc
    · rw [hFr] at hpid
      simp only at hpid
      cases hpid
      exact hwf.2.1 c hc
    · rw [hFr] at hpid
      exact hwf.2.2 r hr pid hpid

/-- Creating a primary record preserves the invariants. -/
theorem groupInv_create_primary {s : Store} (hwf : StoreWF s) (hinv : GroupInv s)
    (email phone : Option String) (now : Nat) :
    GroupInv (createContact s email phone none .primary now).1 ∧
      StoreWF (createContact s email phone none .primary now).1 := by
  constructor
  · intro r hr
    rcases List.mem_append.mp hr with h | h
    · refine ⟨(hinv r h).1, ?_⟩
      intro pid hpid
      obtain ⟨p, hpm, hpid', hproot, hpage⟩ := (hinv r h).2 pid hpid
      exact ⟨p, List.mem_append_left _ hpm, hpid', hproot, hpage⟩
    · rw [List.mem_singleton.mp h]
      exact ⟨by constructor <;> intro <;> rfl, fun pid hpid => Option.noConfusion hpid⟩
  · refine ⟨?_, ?_, ?_⟩
    · simp only [createContact]
      rw [List.pairwise_append]
      refine ⟨hwf.1, List.pairwise_singleton _ _, ?_⟩
      intro a ha b hb
      rw [List.mem_singleton.mp hb]
      exact hwf.2.1 a ha
    · intro r hr
      rcases List.mem_append.mp hr with h | h
      · exact Nat.lt_succ_of_lt (hwf.2.1 r h)
      · rw [List.mem_singleton.mp h]; exact Nat.lt_succ_self _
    · intro r hr pid hpid
      rcases List.mem_append.mp hr with h | h
      · exact Nat.lt_succ_of_lt (hwf.2.2 r h pid hpid)
      · rw [List.mem_singleton.mp h] at hpid
        exact Option.noConfusion hpid

/-- Creating a secondary record linked to a root `C` that is already in the
store preserves the invariants, provided the clock is past `C`'s creation. -/
theorem groupInv_create_secondary {s : Store} (hwf : StoreWF s) (hinv : GroupInv s)
    {C : Contact} (hC : C ∈ s.contacts) (hCroot : C.linkedId = none)
    (email phone : Option String) {now : Nat} (hnow : C.createdAt ≤ now) :
    GroupInv (createContact s email phone (some C.id) .secondary now).1 ∧
      StoreWF (createContact s email phone (some C.id) .secondary now).1 := by
  constructor
  · intro r hr
    rcases List.mem_append.mp hr with h | h
    · refine ⟨(hinv r h).1, ?_⟩
      intro pid hpid
      obtain ⟨p, hpm, hpid', hproot, hpage⟩ := (hinv r h).2 pid hpid
      exact ⟨p, List.mem_append_left _ hpm, hpid', hproot, hpage⟩
    · rw [List.mem_singleton.mp h]
      refine ⟨by constructor <;> intro h' <;> simp at h', ?_⟩
      intro pid hpid
      obtain rfl : C.id = pid := Option.some.inj hpid
      exact ⟨C, List.mem_append_left _ hC, rfl, hCroot, hnow⟩
  · refine ⟨?_, ?_, ?_⟩
    · simp only [createContact]
      rw [List.pairwise_append]
      refine ⟨hwf.1, List.pairwise_singleton _ _, ?_⟩
      intro a ha b hb
      rw [List.mem_singleton.mp hb]
      exact hwf.2.1 a ha
    · intro r hr
      rcases List.mem_append.mp hr with h | h
      · exact Nat.lt_succ_of_lt (hwf.2.1 r h)
      · rw [List.mem_singleton.mp h]; exact Nat.lt_succ_self _
    · intro r hr pid hpid
      rcases List.mem_append.mp hr with h | h
      · exact Nat.lt_succ_of_lt (hwf.2.2 r h pid hpid)
      · rw [List.mem_singleton.mp h] at hpid
        obtain rfl : C.id = pid := Option.some.inj hpid
        exact Nat.lt_succ_of_lt (hwf.2.1 C hC)

/-! ## Facts about the resolved primaries -/

theorem matchingContacts_mem {s : Store} {email phone : Option String} {c : Contact} :
    c ∈ matchingContacts s email phone ↔
      c ∈ s.contacts ∧ matchesInput email phone c = true := by
  rw [matchingContacts, mem_sortByCreated, List.mem_filter]

/-- Every resolved primary is a root record of the store; the list has no
duplicate ids; it is sorted by `createdAt`; and it is nonempty whenever some
contact matched. -/
theorem resolvedPrimaries_facts {s : Store} (hwf : StoreWF s) (hinv : GroupInv s)
    (email phone : Option String) :
    (∀ x ∈ resolvedPrimaries s email phone, x ∈ s.contacts ∧ x.linkedId = none) ∧
    ((resolvedPrimaries s email phone).map (fun c => c.id)).Nodup ∧
    (resolvedPrimaries s email phone).Pairwise (fun a b => a.createdAt ≤ b.createdAt) ∧
    (matchingContacts s email phone ≠ [] → resolvedPrimaries s email phone ≠ []) := by
  have hmem : ∀ c ∈ matchingContacts s email phone, c ∈ s.contacts :=
    fun c hc => (matchingContacts_mem.mp hc).1
  have hres : ∀ c ∈ matchingContacts s email phone,
      (findPrimaryContact s s.contacts.length c) ∈ s.contacts ∧
      (findPrimaryContact s s.contacts.length c).linkedId = none := by
    intro c hc
    have hcs := hmem c hc
    have hlen : 1 ≤ s.contacts.length := List.length_pos.mpr (List.ne_nil_of_mem hcs)
    obtain ⟨r, hr, hrm, hrroot, _, _⟩ := findPrimaryContact_resolve hwf hinv hcs hlen
    rw [hr]
    exact ⟨hrm, hrroot⟩
  refine ⟨?_, ?_, ?_, ?_⟩
  · intro x hx
    rw [resolvedPrimaries, mem_sortByCreated] at hx
    exact collectPrimaries_all (fun x => x ∈ s.contacts ∧ x.linkedId = none)
      (by intro x h; cases h) hres x hx
  · have := @collectPrimaries_nodup_ids s [] (matchingContacts s email phone) (by simp)
    have hperm : (resolvedPrimaries s email phone).Perm
        (collectPrimaries s [] (matchingContacts s email phone)) :=
      sortByCreated_perm _
    exact (hperm.map (fun c => c.id)).nodup_iff.mpr this
  · exact sortByCreated_sorted _
  · intro hne h
    have hp := sortByCreated_perm (collectPrimaries s [] (matchingContacts s email phone))
    rw [resolvedPrimaries] at h
    rw [h] at hp
    exact collectPrimaries_ne_nil s hne (List.Perm.eq_nil hp.symm)

/-! ## Response building lemmas -/

theorem collectEmails_cons_none {c : Contact} (h : c.email = none)
    (acc : List String) (rest : List Contact) :
    collectEmails acc (c :: rest) = collectEmails acc rest := by
  simp only [collectEmails]
  rw [h]

theorem collectEmails_cons_some {c : Contact} {e : String} (h : c.email = some e)
    (acc : List String) (rest : List Contact) :
    collectEmails acc (c :: rest) =
      if !(e == "") && !(acc.contains e) then collectEmails (acc ++ [e]) rest
      else collectEmails acc rest := by
  simp only [collectEmails]
  rw [h]

theorem collectPhones_cons_none {c : Contact} (h : c.phoneNumber = none)
    (acc : List String) (rest : List Contact) :
    collectPhones acc (c :: rest) = collectPhones acc rest := by
  simp only [collectPhones]
  rw [h]

theorem collectPhones_cons_some {c : Contact} {p : String} (h : c.phoneNumber = some p)
    (acc : List String) (rest : List Contact) :
    collectPhones acc (c :: rest) =
      if !(p == "") && !(acc.contains p) then collectPhones (acc ++ [p]) rest
      else collectPhones acc rest := by
  simp only [collectPhones]
  rw [h]

theorem collectEmails_head (acc : List String) (l : List Contact) (hacc : acc ≠ []) :
    (collectEmails acc l).head? = acc.head? := by
  induction l generalizing acc with
  | nil => rfl
  | cons c rest ih =>
    cases he : c.email with
    | none => rw [collectEmails_cons_none he, ih acc hacc]
    | some e =>
      rw [collectEmails_cons_some he]
      split
      · rw [ih (acc ++ [e]) (by simp)]
        cases acc with
        | nil => exact absurd rfl hacc
        | cons a as => rfl
      · exact ih acc hacc

theorem collectPhones_head (acc : List String) (l : List Contact) (hacc : acc ≠ []) :
    (collectPhones acc l).head? = acc.head? := by
  induction l generalizing acc with
  | nil => rfl
  | cons c rest ih =>
    cases he : c.phoneNumber with
    | none => rw [collectPhones_cons_none he, ih acc hacc]
    | some p =>
      rw [collectPhones_cons_some he]
      split
      · rw [ih (acc ++ [p]) (by simp)]
        cases acc with
        | nil => exact absurd rfl hacc
        | cons a as => rfl
      · exact ih acc hacc

theorem collectEmails_nodup (acc : List String) (l : List Contact) (hacc : acc.Nodup) :
    (collectEmails acc l).Nodup := by
  induction l generalizing acc with
  | nil => exact hacc
  | cons c rest ih =>
    cases he : c.email with
    | none => rw [collectEmails_cons_none he]; exact ih acc hacc
    | some e =>
      rw [collectEmails_cons_some he]
      split
      · rename_i hcond
        refine ih _ ?_
        rw [List.nodup_append]
        refine ⟨hacc, List.nodup_singleton _, ?_⟩
        intro x hx
        rw [List.mem_singleton]
        intro heq
        subst heq
        have h2 := ((Bool.and_eq_true _ _).mp hcond).2
        rw [Bool.not_eq_true'] at h2
        have hx2 : acc.contains x = true := by simpa using hx
        rw [h2] at hx2
        cases hx2
      · exact ih acc hacc

theorem collectPhones_nodup (acc : List String) (l : List Contact) (hacc : acc.Nodup) :
    (collectPhones acc l).Nodup := by
  induction l generalizing acc with
  | nil => exact hacc
  | cons c rest ih =>
    cases he : c.phoneNumber with
    | none => rw [collectPhones_cons_none he]; exact ih acc hacc
    | some p =>
      rw [collectPhones_cons_some he]
      split
      · rename_i hcond
        refine ih _ ?_
        rw [List.nodup_append]
        refine ⟨hacc, List.nodup_singleton _, ?_⟩
        intro x hx
        rw [List.mem_singleton]
        intro heq
        subst heq
        have h2 := ((Bool.and_eq_true _ _).mp hcond).2
        rw [Bool.not_eq_true'] at h2
        have hx2 : acc.contains x = true := by simpa using hx
        rw [h2] at hx2
        cases hx2
      · exact ih acc hacc

theorem collectEmails_sublist (acc : List String) (l : List Contact) :
    ∃ cs : List Contact, cs.Sublist l ∧
      collectEmails acc l = acc ++ cs.map (fun c => c.email.getD "") := by
  induction l generalizing acc with
  | nil => exact ⟨[], List.Sublist.refl [], by simp [collectEmails]⟩
  | cons c rest ih =>
    cases he : c.email with
    | none =>
      obtain ⟨cs, hsub, heq⟩ := ih acc
      exact ⟨cs, hsub.cons c, by rw [collectEmails_cons_none he]; exact heq⟩
    | some e =>
      by_cases hcond : (!(e == "") && !(acc.contains e)) = true
      · obtain ⟨cs, hsub, heq⟩ := ih (acc ++ [e])
        refine ⟨c :: cs, hsub.cons₂ c, ?_⟩
        rw [collectEmails_cons_some he, if_pos hcond, heq]
        simp [he]
      · obtain ⟨cs, hsub, heq⟩ := ih acc
        refine ⟨cs, hsub.cons c, ?_⟩
        rw [collectEmails_cons_some he, if_neg hcond]
        exact heq

theorem collectPhones_sublist (acc : List String) (l : List Contact) :
    ∃ cs : List Contact, cs.Sublist l ∧
      collectPhones acc l = acc ++ cs.map (fun c => c.phoneNumber.getD "") := by
  induction l generalizing acc with
  | nil => exact ⟨[], List.Sublist.refl [], by simp [collectPhones]⟩
  | cons c rest ih =>
    cases he : c.phoneNumber with
    | none =>
      obtain ⟨cs, hsub, heq⟩ := ih acc
      exact ⟨cs, hsub.cons c, by rw [collectPhones_cons_none he]; exact heq⟩
    | some p =>
      by_cases hcond : (!(p == "") && !(acc.contains p)) = true
      · obtain ⟨cs, hsub, heq⟩ := ih (acc ++ [p])
        refine ⟨c :: cs, hsub.cons₂ c, ?_⟩
        rw [collectPhones_cons_some he, if_pos hcond, heq]
        simp [he]
      · obtain ⟨cs, hsub, heq⟩ := ih acc
        refine ⟨cs, hsub.cons c, ?_⟩
        rw [collectPhones_cons_some he, if_neg hcond]
        exact heq

theorem collectEmails_mem (acc : List String) (l : List Contact) (x : String) :
    x ∈ collectEmails acc l ↔
      x ∈ acc ∨ (x ≠ "" ∧ ∃ c ∈ l, c.email = some x) := by
  induction l generalizing acc with
  | nil => simp [collectEmails]
  | cons c rest ih =>
    cases he : c.email with
    | none =>
      rw [collectEmails_cons_none he, ih acc]
      constructor
      · rintro (h | ⟨hne, d, hd, hde⟩)
        · exact Or.inl h
        · exact Or.inr ⟨hne, d, List.mem_cons_of_mem c hd, hde⟩
      · rintro (h | ⟨hne, d, hd, hde⟩)
        · exact Or.inl h
        · rcases List.mem_cons.mp hd with rfl | hd'
          · rw [he] at hde; cases hde
          · exact Or.inr ⟨hne, d, hd', hde⟩
    | some e =>
      rw [collectEmails_cons_some he]
      split
      · rename_i hcond
        have hcond' := (Bool.and_eq_true _ _).mp hcond
        have hene : e ≠ "" := by
          have h1 := hcond'.1
          rw [Bool.not_eq_true', beq_eq_false_iff_ne] at h1
          exact h1
        rw [ih (acc ++ [e])]
        constructor
        · rintro (h | ⟨hne, d, hd, hde⟩)
          · rcases List.mem_append.mp h with h' | h'
            · exact Or.inl h'
            · rw [List.mem_singleton.mp h']
              exact Or.inr ⟨hene, c, List.mem_cons_self c rest, he⟩
          · exact Or.inr ⟨hne, d, List.mem_cons_of_mem c hd, hde⟩
        · rintro (h | ⟨hne, d, hd, hde⟩)
          · exact Or.inl (List.mem_append_left _ h)
          · rcases List.mem_cons.mp hd with rfl | hd'
            · rw [he] at hde
              rw [Option.some.inj hde]
              exact Or.inl (List.mem_append_right _ (List.mem_singleton.mpr rfl))
            · exact Or.inr ⟨hne, d, hd', hde⟩
      · rename_i hcond
        rw [ih acc]
        have hcond2 : e = "" ∨ e ∈ acc := by
          have hff : (!(e == "") && !(acc.contains e)) = false := by
            cases hb : (!(e == "") && !(acc.contains e)) with
            | true => exact absurd hb hcond
            | false => rfl
          rcases Bool.and_eq_false_iff.mp hff with h | h
          · left
            rw [Bool.not_eq_false'] at h
            exact beq_iff_eq.mp h
          · right
            rw [Bool.not_eq_false'] at h
            simpa using h
        constructor
        · rintro (h | ⟨hne, d, hd, hde⟩)
          · exact Or.inl h
          · exact Or.inr ⟨hne, d, List.mem_cons_of_mem c hd, hde⟩
        · rintro (h | ⟨hne, d, hd, hde⟩)
          · exact Or.inl h
          · rcases List.mem_cons.mp hd with rfl | hd'
            · rw [he] at hde
              obtain rfl : e = x := Option.some.inj hde
              rcases hcond2 with h' | h'
              · exact absurd h' hne
              · exact Or.inl h'
            · exact Or.inr ⟨hne, d, hd', hde⟩

theorem collectPhones_mem (acc : List String) (l : List Contact) (x : String) :
    x ∈ collectPhones acc l ↔
      x ∈ acc ∨ (x ≠ "" ∧ ∃ c ∈ l, c.phoneNumber = some x) := by
  induction l generalizing acc with
  | nil => simp [collectPhones]
  | cons c rest ih =>
    cases he : c.phoneNumber with
    | none =>
      rw [collectPhones_cons_none he, ih acc]
      constructor
      · rintro (h | ⟨hne, d, hd, hde⟩)
        · exact Or.inl h
        · exact Or.inr ⟨hne, d, List.mem_cons_of_mem c hd, hde⟩
      · rintro (h | ⟨hne, d, hd, hde⟩)
        · exact Or.inl h
        · rcases List.mem_cons.mp hd with rfl | hd'
          · rw [he] at hde; cases hde
          · exact Or.inr ⟨hne, d, hd', hde⟩
    | some e =>
      rw [collectPhones_cons_some he]
      split
      · rename_i hcond
        have hcond' := (Bool.and_eq_true _ _).mp hcond
        have hene : e ≠ "" := by
          have h1 := hcond'.1
          rw [Bool.not_eq_true', beq_eq_false_iff_ne] at h1
          exact h1
        rw [ih (acc ++ [e])]
        constructor
        · rintro (h | ⟨hne, d, hd, hde⟩)
          · rcases List.mem_append.mp h with h' | h'
            · exact Or.inl h'
            · rw [List.mem_singleton.mp h']
              exact Or.inr ⟨hene, c, List.mem_cons_self c rest, he⟩
          · exact Or.inr ⟨hne, d, List.mem_cons_of_mem c hd, hde⟩
        · rintro (h | ⟨hne, d, hd, hde⟩)
          · exact Or.inl (List.mem_append_left _ h)
          · rcases List.mem_cons.mp hd with rfl | hd'
            · rw [he] at hde
              rw [Option.some.inj hde]
              exact Or.inl (List.mem_append_right _ (List.mem_singleton.mpr rfl))
            · exact Or.inr ⟨hne, d, hd', hde⟩
      · rename_i hcond
        rw [ih acc]
        have hcond2 : e = "" ∨ e ∈ acc := by
          have hff : (!(e == "") && !(acc.contains e)) = false := by
            cases hb : (!(e == "") && !(acc.contains e)) with
            | true => exact absurd hb hcond
            | false => rfl
          rcases Bool.and_eq_false_iff.mp hff with h | h
          · left
            rw [Bool.not_eq_false'] at h
            exact beq_iff_eq.mp h
          · right
            rw [Bool.not_eq_false'] at h
            simpa using h
        constructor
        · rintro (h | ⟨hne, d, hd, hde⟩)
          · exact Or.inl h
          · exact Or.inr ⟨hne, d, List.mem_cons_of_mem c hd, hde⟩
        · rintro (h | ⟨hne, d, hd, hde⟩)
          · exact Or.inl h
          · rcases List.mem_cons.mp hd with rfl | hd'
            · rw [he] at hde
              obtain rfl : e = x := Option.some.inj hde
              rcases hcond2 with h' | h'
              · exact absurd h' hne
              · exact Or.inl h'
            · exact Or.inr ⟨hne, d, hd', hde⟩

theorem secondariesOf_mem {s : Store} {pid : Nat} {c : Contact} :
    c ∈ secondariesOf s pid ↔ c ∈ s.contacts ∧ c.linkedId = some pid := by
  rw [secondariesOf, mem_sortByCreated, List.mem_filter]
  simp

theorem existingEmails_mem {l : List Contact} {e : String} :
    e ∈ existingEmails l ↔ e ≠ "" ∧ ∃ c ∈ l, c.email = some e := by
  rw [existingEmails, List.mem_filter, List.mem_filterMap]
  constructor
  · rintro ⟨⟨c, hc, hce⟩, hne⟩
    refine ⟨by simpa using hne, c, hc, hce⟩
  · rintro ⟨hne, c, hc, hce⟩
    exact ⟨⟨c, hc, hce⟩, by simpa using hne⟩

theorem existingPhones_mem {l : List Contact} {p : String} :
    p ∈ existingPhones l ↔ p ≠ "" ∧ ∃ c ∈ l, c.phoneNumber = some p := by
  rw [existingPhones, List.mem_filter, List.mem_filterMap]
  constructor
  · rintro ⟨⟨c, hc, hce⟩, hne⟩
    refine ⟨by simpa using hne, c, hc, hce⟩
  · rintro ⟨hne, c, hc, hce⟩
    exact ⟨⟨c, hc, hce⟩, by simpa using hne⟩

theorem allLinked_mem {s : Store} {pid : Nat} {c : Contact} :
    c ∈ allLinked s pid ↔ c ∈ s.contacts ∧ (c.id = pid ∨ c.linkedId = some pid) := by
  rw [allLinked, List.mem_filter]
  simp

/-! ## Frame preservation -/

/-- Positionwise frame relation: the new store keeps every pre-existing record
at its position with the same `id`, `email`, `phoneNumber` and `createdAt`
(only `linkedId`/`linkPrecedence` may differ), and only appends records. -/
def preservesCore (s s' : Store) : Prop :=
  s.contacts.length ≤ s'.contacts.length ∧
  ∀ (i : Nat) (c : Contact), s.contacts[i]? = some c →
    ∃ c' : Contact, s'.contacts[i]? = some c' ∧
      c'.id = c.id ∧ c'.email = c.email ∧ c'.phoneNumber = c.phoneNumber ∧
      c'.createdAt = c.createdAt

theorem preservesCore_refl (s : Store) : preservesCore s s :=
  ⟨Nat.le_refl _, fun _ c h => ⟨c, h, rfl, rfl, rfl, rfl⟩⟩

theorem preservesCore_trans {s1 s2 s3 : Store}
    (h12 : preservesCore s1 s2) (h23 : preservesCore s2 s3) : preservesCore s1 s3 := by
  refine ⟨Nat.le_trans h12.1 h23.1, ?_⟩
  intro i c h
  obtain ⟨c2, h2, hid2, hem2, hph2, hcr2⟩ := h12.2 i c h
  obtain ⟨c3, h3, hid3, hem3, hph3, hcr3⟩ := h23.2 i c2 h2
  exact ⟨c3, h3, hid3.trans hid2, hem3.trans hem2, hph3.trans hph2, hcr3.trans hcr2⟩

theorem preservesCore_map {s : Store} {f : Contact → Contact}
    (hf : ∀ c, (f c).id = c.id ∧ (f c).email = c.email ∧
      (f c).phoneNumber = c.phoneNumber ∧ (f c).createdAt = c.createdAt)
    {t : Store} (ht : t.contacts = s.contacts.map f) : preservesCore s t := by
  refine ⟨by rw [ht, List.length_map], ?_⟩
  intro i c h
  refine ⟨f c, ?_, (hf c).1, (hf c).2.1, (hf c).2.2.1, (hf c).2.2.2⟩
  rw [ht, List.getElem?_map, h, Option.map_some']

theorem preservesCore_append {s : Store} {t : Store} {l : List Contact}
    (ht : t.contacts = s.contacts ++ l) : preservesCore s t := by
  refine ⟨by rw [ht, List.length_append]; omega, ?_⟩
  intro i c h
  refine ⟨c, ?_, rfl, rfl, rfl, rfl⟩
  rw [ht]
  have hi : i < s.contacts.length := by
    by_contra hge
    rw [List.getElem?_eq_none (by omega)] at h
    cases h
  rw [List.getElem?_append, if_pos hi]
  exact h

theorem stepFun_core (oid cid : Nat) (r : Contact) :
    (stepFun oid cid r).id = r.id ∧ (stepFun oid cid r).email = r.email ∧
    (stepFun oid cid r).phoneNumber = r.phoneNumber ∧
    (stepFun oid cid r).createdAt = r.createdAt := by
  simp only [stepFun]
  split <;> split <;> exact ⟨rfl, rfl, rfl, rfl⟩

theorem preservesCore_mergeOthers (cid : Nat) (os : List Contact) (s : Store) :
    preservesCore s (mergeOthers cid s os) := by
  induction os generalizing s with
  | nil => exact preservesCore_refl s
  | cons o rest ih =>
    rw [mergeOthers_cons]
    refine preservesCore_trans ?_ (ih _)
    exact preservesCore_map (stepFun_core o.id cid) (step_contacts s o.id cid).1

/-! ## Unfolding identifyContact by branch -/

theorem identifyContact_no_match {s : Store} {email phone : Option String} {now : Nat}
    (h : matchingContacts s email phone = []) :
    identifyContact s email phone now =
      ((createContact s email phone none .primary now).1,
       buildResponse (createContact s email phone none .primary now).1
         (createContact s email phone none .primary now).2) := by
  unfold identifyContact
  rw [h]
  rfl

theorem identifyContact_matched_create {s : Store} {email phone : Option String} {now : Nat}
    {canonical : Contact} {others : List Contact}
    (hm : matchingContacts s email phone ≠ [])
    (hr : resolvedPrimaries s email phone = canonical :: others)
    (hcond : (hasNewEmail email (allLinked (mergeOthers canonical.id s others) canonical.id) ||
      hasNewPhone phone (allLinked (mergeOthers canonical.id s others) canonical.id)) = true) :
    identifyContact s email phone now =
      ((createContact (mergeOthers canonical.id s others) email phone
          (some canonical.id) .secondary now).1,
       buildResponse (createContact (mergeOthers canonical.id s others) email phone
          (some canonical.id) .secondary now).1 canonical) := by
  obtain ⟨a, l, hml⟩ := List.exists_cons_of_ne_nil hm
  unfold identifyContact
  rw [hml, hr]
  simp only [List.isEmpty_cons, Bool.false_eq_true, if_false, hcond, if_true]

theorem identifyContact_matched_nocreate {s : Store} {email phone : Option String} {now : Nat}
    {canonical : Contact} {others : List Contact}
    (hm : matchingContacts s email phone ≠ [])
    (hr : resolvedPrimaries s email phone = canonical :: others)
    (hcond : (hasNewEmail email (allLinked (mergeOthers canonical.id s others) canonical.id) ||
      hasNewPhone phone (allLinked (mergeOthers canonical.id s others) canonical.id)) = false) :
    identifyContact s email phone now =
      (mergeOthers canonical.id s others,
       buildResponse (mergeOthers canonical.id s others) canonical) := by
  obtain ⟨a, l, hml⟩ := List.exists_cons_of_ne_nil hm
  unfold identifyContact
  rw [hml, hr]
  simp only [List.isEmpty_cons, Bool.false_eq_true, if_false, hcond]

theorem identifyContact_dead {s : Store} {email phone : Option String} {now : Nat}
    (hm : matchingContacts s email phone ≠ [])
    (hr : resolvedPrimaries s email phone = []) :
    identifyContact s email phone now = (s, ⟨0, [], [], []⟩) := by
  obtain ⟨a, l, hml⟩ := List.exists_cons_of_ne_nil hm
  unfold identifyContact
  rw [hml, hr]
  simp only [List.isEmpty_cons, Bool.false_eq_true, if_false]

theorem resolvedPrimaries_ne_nil_of_match {s : Store} {email phone : Option String}
    {canonical : Contact} {others : List Contact}
    (hr : resolvedPrimaries s email phone = canonical :: others) :
    matchingContacts s email phone ≠ [] := by
  intro h
  rw [resolvedPrimaries, h] at hr
  cases hr

theorem hasNewEmail_iff {email : Option String} {l : List Contact} :
    hasNewEmail email l = true ↔ ∃ e, email = some e ∧ e ∉ existingEmails l := by
  cases email with
  | none => simp [hasNewEmail]
  | some e =>
    simp only [hasNewEmail, Bool.not_eq_true']
    constructor
    · intro h
      refine ⟨e, rfl, fun hmem => ?_⟩
      have : (existingEmails l).contains e = true := by simpa using hmem
      rw [this] at h
      cases h
    · rintro ⟨e', he', hmem⟩
      obtain rfl : e = e' := Option.some.inj he'
      cases hb : (existingEmails l).contains e with
      | false => rfl
      | true => exact absurd (by simpa using hb) hmem

theorem hasNewPhone_iff {phone : Option String} {l : List Contact} :
    hasNewPhone phone l = true ↔ ∃ p, phone = some p ∧ p ∉ existingPhones l := by
  cases phone with
  | none => simp [hasNewPhone]
  | some p =>
    simp only [hasNewPhone, Bool.not_eq_true']
    constructor
    · intro h
      refine ⟨p, rfl, fun hmem => ?_⟩
      have : (existingPhones l).contains p = true := by simpa using hmem
      rw [this] at h
      cases h
    · rintro ⟨p', hp', hmem⟩
      obtain rfl : p = p' := Option.some.inj hp'
      cases hb : (existingPhones l).contains p with
      | false => rfl
      | true => exact absurd (by simpa using hb) hmem

/-! ## The claims -/

/-- C10: every single invocation of `identifyContact` inserts at most one new
record into the store: the store grows by at most one record, whatever the
input and state. -/
theorem identify_at_most_one_insert (s : Store) (email phone : Option String) (now : Nat) :
    (identifyContact s email phone now).1.contacts.length ≤ s.contacts.length + 1 := by
  by_cases hm : matchingContacts s email phone = []
  · rw [identifyContact_no_match hm]
    simp [createContact]
  · cases hr : resolvedPrimaries s email phone with
    | nil =>
      rw [identifyContact_dead hm hr]
      exact Nat.le_succ_of_le (Nat.le_refl _)
    | cons canonical others =>
      have hlen := (mergeOthers_length canonical.id others s).1
      cases hcond : (hasNewEmail email (allLinked (mergeOthers canonical.id s others) canonical.id) ||
          hasNewPhone phone (allLinked (mergeOthers canonical.id s others) canonical.id)) with
      | true =>
        rw [identifyContact_matched_create hm hr hcond]
        simp only [createContact, List.length_append, List.length_cons, List.length_nil]
        omega
      | false =>
        rw [identifyContact_matched_nocreate hm hr hcond]
        show (mergeOthers canonical.id s others).contacts.length ≤ s.contacts.length + 1
        omega

/-- C7: when no stored record carries the given email and none carries the
given phone, `identifyContact` appends exactly one new record — a primary
with no parent link holding the given values — and returns the consolidated
view of just that record, with no secondary ids. -/
theorem identify_no_match_creates_primary (s : Store) (email phone : Option String)
    (now : Nat) (hwf : StoreWF s)
    (hno : ∀ c ∈ s.contacts, (∀ e, email = some e → c.email ≠ some e) ∧
      (∀ p, phone = some p → c.phoneNumber ≠ some p)) :
    (identifyContact s email phone now).1.contacts =
      s.contacts ++ [⟨s.nextId, phone, email, none, .primary, now⟩] ∧
    (identifyContact s email phone now).2 =
      ⟨s.nextId, (if truthy email then [email.getD ""] else []),
        (if truthy phone then [phone.getD ""] else []), []⟩ := by
  have hfil : s.contacts.filter (matchesInput email phone) = [] := by
    rw [List.filter_eq_nil_iff]
    intro c hc
    unfold matchesInput
    rw [Bool.not_eq_true, Bool.or_eq_false_iff]
    constructor
    · cases email with
      | none => rfl
      | some e =>
        rw [Bool.and_eq_false_iff]
        right
        rw [beq_eq_false_iff_ne]
        exact (hno c hc).1 e rfl
    · cases phone with
      | none => rfl
      | some p =>
        rw [Bool.and_eq_false_iff]
        right
        rw [beq_eq_false_iff_ne]
        exact (hno c hc).2 p rfl
  have hm : matchingContacts s email phone = [] := by
    rw [matchingContacts, hfil]
    rfl
  rw [identifyContact_no_match hm]
  have hnew : (createContact s email phone none .primary now).2 =
      ⟨s.nextId, phone, email, none, .primary, now⟩ := rfl
  have hsto : (createContact s email phone none .primary now).1.contacts =
      s.contacts ++ [⟨s.nextId, phone, email, none, .primary, now⟩] := rfl
  refine ⟨hsto, ?_⟩
  have hsec : secondariesOf (createContact s email phone none .primary now).1 s.nextId = [] := by
    rw [secondariesOf]
    have : (createContact s email phone none .primary now).1.contacts.filter
        (fun c => c.linkedId == some s.nextId) = [] := by
      rw [List.filter_eq_nil_iff]
      intro c hc
      rw [hsto] at hc
      rw [Bool.not_eq_true]
      rcases List.mem_append.mp hc with h | h
      · rw [beq_eq_false_iff_ne]
        intro heq
        have := hwf.2.2 c h s.nextId heq
        omega
      · rw [List.mem_singleton.mp h]
        simp
    rw [this]
    rfl
  show buildResponse (createContact s email phone none .primary now).1
      ⟨s.nextId, phone, email, none, .primary, now⟩ = _
  unfold buildResponse
  rw [hsec]
  rfl

/-- A record is a resolved root: either it has no parent link, or its parent
link dangles (the referenced record is absent from the store). -/
def IsResolvedRoot (s : Store) (r : Contact) : Prop :=
  r.linkedId = none ∨ ∃ pid, r.linkedId = some pid ∧ findById s pid = none

/-- C8: on any store whose parent chains are acyclic — witnessed by a ranking
that strictly decreases from child to resolvable parent — root resolution
with any sufficient fuel (in particular the `s.contacts.length` fuel that
`identifyContact` uses, since an acyclic store admits a ranking below that
bound) terminates at a record that either has `linkedId = null` or whose
`linkedId` dangles, in which case the last resolvable record is returned
rather than an error being raised. -/
theorem findPrimaryContact_terminates (s : Store) (rank : Nat → Nat)
    (hrank : ∀ c ∈ s.contacts, ∀ pid p, c.linkedId = some pid →
      findById s pid = some p → rank p.id < rank c.id)
    (c : Contact) (hc : c ∈ s.contacts) (fuel : Nat) (hfuel : rank c.id < fuel) :
    IsResolvedRoot s (findPrimaryContact s fuel c) := by
  induction fuel generalizing c with
  | zero => omega
  | succ n ih =>
    cases hl : c.linkedId with
    | none =>
      rw [findPrimaryContact_of_root hl]
      exact Or.inl hl
    | some pid =>
      cases hf : findById s pid with
      | none =>
        have : findPrimaryContact s (n + 1) c = c := by
          simp [findPrimaryContact, hl, hf]
        rw [this]
        exact Or.inr ⟨pid, hl, hf⟩
      | some parent =>
        have hstep : findPrimaryContact s (n + 1) c = findPrimaryContact s n parent := by
          simp [findPrimaryContact, hl, hf]
        rw [hstep]
        have hpm := (findById_some hf).1
        have hlt := hrank c hc pid parent hl hf
        exact ih parent hpm (by omega)

/-- A concrete reachable scenario used to analyse the `createdAt` tie-break:
three calls on one clock tick build two primaries (ids 1 and 2) with equal
`createdAt` and one secondary (id 3, phone "p4") under primary 1. -/
def exStore1 : Store := (identifyContact Store.empty (some "a1") (some "p1") 0).1

def exStore2 : Store := (identifyContact exStore1 (some "a2") (some "p2") 0).1

def exStore3 : Store := (identifyContact exStore2 (some "a1") (some "p4") 0).1

/-- C2 counterexample: in `exStore3` the call `identify(email "a2", phone "p4")`
resolves two distinct primaries with ids 2 and 1 and equal `createdAt`, in
that first-resolution order; the claim's tie-break by ascending id would make
id 1 canonical, but the code selects id 2 — the comparator sorts by
`createdAt` only and the stable sort keeps resolution order on ties. -/
theorem canonical_tiebreak_counterexample :
    (resolvedPrimaries exStore3 (some "a2") (some "p4")).map (fun c => c.id) = [2, 1] ∧
    (∀ c ∈ resolvedPrimaries exStore3 (some "a2") (some "p4"), c.createdAt = 0) ∧
    (identifyContact exStore3 (some "a2") (some "p4") 0).2.primaryContatctId = 2 := by
  decide

/-- C2 (amended): the canonical primary — the head of `resolvedPrimaries` —
has minimal `createdAt` among the distinct resolved primaries, and whenever
one resolved primary is strictly older than all the others it is the one
selected.  (On exact `createdAt` ties the code keeps first-resolution order,
not ascending id.) -/
theorem canonicalPrimary_minimal_createdAt (s : Store) (email phone : Option String)
    (canonical : Contact) (others : List Contact)
    (h : resolvedPrimaries s email phone = canonical :: others) :
    (∀ o ∈ resolvedPrimaries s email phone, canonical.createdAt ≤ o.createdAt) ∧
    (∀ p ∈ resolvedPrimaries s email phone,
      (∀ q ∈ resolvedPrimaries s email phone, q ≠ p → p.createdAt < q.createdAt) →
      canonical = p) := by
  have hs : (resolvedPrimaries s email phone).Pairwise
      (fun a b => a.createdAt ≤ b.createdAt) := sortByCreated_sorted _
  have hmin : ∀ o ∈ resolvedPrimaries s email phone, canonical.createdAt ≤ o.createdAt := by
    rw [h] at hs ⊢
    rw [List.pairwise_cons] at hs
    intro o ho
    rcases List.mem_cons.mp ho with rfl | ho'
    · exact Nat.le_refl _
    · exact hs.1 o ho'
  refine ⟨hmin, ?_⟩
  intro p hp hstrict
  by_cases heq : canonical = p
  · exact heq
  · have h1 : p.createdAt < canonical.createdAt :=
      hstrict canonical (h ▸ List.mem_cons_self _ _) heq
    have h2 : canonical.createdAt ≤ p.createdAt := hmin p hp
    omega

theorem canonicalPrimary_minimal_createdAt_witness :
    (∀ o ∈ resolvedPrimaries exStore3 (some "a2") (some "p4"),
      (⟨2, some "p2", some "a2", none, .primary, 0⟩ : Contact).createdAt ≤ o.createdAt) ∧
    (∀ p ∈ resolvedPrimaries exStore3 (some "a2") (some "p4"),
      (∀ q ∈ resolvedPrimaries exStore3 (some "a2") (some "p4"), q ≠ p →
        p.createdAt < q.createdAt) →
      (⟨2, some "p2", some "a2", none, .primary, 0⟩ : Contact) = p) :=
  canonicalPrimary_minimal_createdAt exStore3 (some "a2") (some "p4")
    ⟨2, some "p2", some "a2", none, .primary, 0⟩
    [⟨1, some "p1", some "a1", none, .primary, 0⟩] (by decide)

/-- C5 counterexample: `exStore3` satisfies the invariants including the
spec's tie-break clause (every parent is strictly older or same-age with a
smaller id), yet after `identify(email "a2", phone "p4")` record 1 is linked
under record 2 — same `createdAt`, larger id — so "the primary is the
earliest-created record (ties broken by lowest id)" is not preserved. -/
theorem inv_tiebreak_counterexample :
    GroupInvTie exStore3 ∧ StoreWF exStore3 ∧
    ¬ GroupInvTie (identifyContact exStore3 (some "a2") (some "p4") 0).1 := by
  decide

/-- C5 (amended): every call preserves the group invariants — each record is
primary exactly when it has no parent link, every parent link points at a
record that exists, is itself a root, and is no younger than the child (so
each group is flat with a unique primary of minimal `createdAt`) — along with
store well-formedness; on `createdAt` ties the primary need not have the
lowest id. -/
theorem identify_preserves_invariants (s : Store) (email phone : Option String)
    (now : Nat) (hwf : StoreWF s) (hinv : GroupInv s)
    (hnow : ∀ c ∈ s.contacts, c.createdAt ≤ now) :
    GroupInv (identifyContact s email phone now).1 ∧
      StoreWF (identifyContact s email phone now).1 := by
  by_cases hm : matchingContacts s email phone = []
  · rw [identifyContact_no_match hm]
    exact groupInv_create_primary hwf hinv email phone now
  · cases hr : resolvedPrimaries s email phone with
    | nil =>
      rw [identifyContact_dead hm hr]
      exact ⟨hinv, hwf⟩
    | cons canonical others =>
      obtain ⟨hall, hnodup, hsorted, _⟩ := resolvedPrimaries_facts hwf hinv email phone
      rw [hr] at hall hnodup hsorted
      have hc : canonical ∈ s.contacts := (hall canonical (List.mem_cons_self _ _)).1
      have hcroot : canonical.linkedId = none := (hall canonical (List.mem_cons_self _ _)).2
      have hos : ∀ o ∈ others, o ∈ s.contacts ∧ o.linkedId = none :=
        fun o ho => hall o (List.mem_cons_of_mem _ ho)
      rw [List.map_cons] at hnodup
      have hcid : canonical.id ∉ others.map (fun o => o.id) := (List.nodup_cons.mp hnodup).1
      have hnodup' : (others.map (fun o => o.id)).Nodup := (List.nodup_cons.mp hnodup).2
      rw [List.pairwise_cons] at hsorted
      have hage : ∀ o ∈ others, canonical.createdAt ≤ o.createdAt := hsorted.1
      obtain ⟨hinv1, hwf1, hcmem1⟩ :=
        groupInv_merge hwf hinv hc hcroot hos hcid hnodup' hage
      cases hcond : (hasNewEmail email
          (allLinked (mergeOthers canonical.id s others) canonical.id) ||
          hasNewPhone phone (allLinked (mergeOthers canonical.id s others) canonical.id)) with
      | false =>
        rw [identifyContact_matched_nocreate hm hr hcond]
        exact ⟨hinv1, hwf1⟩
      | true =>
        rw [identifyContact_matched_create hm hr hcond]
        exact groupInv_create_secondary hwf1 hinv1 hcmem1 hcroot email phone (hnow canonical hc)

theorem identify_preserves_invariants_witness :
    GroupInv (identifyContact exStore3 (some "a2") (some "p4") 0).1 ∧
      StoreWF (identifyContact exStore3 (some "a2") (some "p4") 0).1 :=
  identify_preserves_invariants exStore3 (some "a2") (some "p4") 0
    (by decide) (by decide) (by decide)

/-- C9: `identifyContact` never rewrites the `id`, `email`, `phoneNumber` or
`createdAt` of a pre-existing record: every record of the old store is still
at its position in the new store with those four fields unchanged (only
`linkedId`/`linkPrecedence` may have been written), and records are only
appended. -/
theorem identify_frame_preserves_fields (s : Store) (email phone : Option String)
    (now : Nat) : preservesCore s (identifyContact s email phone now).1 := by
  by_cases hm : matchingContacts s email phone = []
  · rw [identifyContact_no_match hm]
    exact preservesCore_append rfl
  · cases hr : resolvedPrimaries s email phone with
    | nil =>
      rw [identifyContact_dead hm hr]
      exact preservesCore_refl s
    | cons canonical others =>
      cases hcond : (hasNewEmail email
          (allLinked (mergeOthers canonical.id s others) canonical.id) ||
          hasNewPhone phone (allLinked (mergeOthers canonical.id s others) canonical.id)) with
      | false =>
        rw [identifyContact_matched_nocreate hm hr hcond]
        exact preservesCore_mergeOthers canonical.id others s
      | true =>
        rw [identifyContact_matched_create hm hr hcond]
        exact preservesCore_trans (preservesCore_mergeOthers canonical.id others s)
          (preservesCore_append rfl)

/-- C1: with at least one record matched, a new record is created if and only
if the provided email is absent from the merged group's emails or the
provided phone is absent from the merged group's phones — per-field set
membership over the whole group, never per-record pairing — and when one is
created it is exactly one secondary holding the given values with `linkedId`
the canonical primary's id. -/
theorem identify_creates_iff_field_novelty (s : Store) (email phone : Option String)
    (now : Nat) (canonical : Contact) (others : List Contact)
    (hr : resolvedPrimaries s email phone = canonical :: others)
    (hene : ∀ e, email = some e → e ≠ "")
    (hpne : ∀ p, phone = some p → p ≠ "") :
    ((identifyContact s email phone now).1.contacts.length = s.contacts.length + 1 ↔
      ((∃ e, email = some e ∧
          ¬∃ c ∈ allLinked (mergeOthers canonical.id s others) canonical.id,
            c.email = some e) ∨
       (∃ p, phone = some p ∧
          ¬∃ c ∈ allLinked (mergeOthers canonical.id s others) canonical.id,
            c.phoneNumber = some p))) ∧
    ((identifyContact s email phone now).1.contacts.length = s.contacts.length + 1 →
      (identifyContact s email phone now).1.contacts =
        (mergeOthers canonical.id s others).contacts ++
          [⟨s.nextId, phone, email, some canonical.id, .secondary, now⟩]) := by
  have hm : matchingContacts s email phone ≠ [] := resolvedPrimaries_ne_nil_of_match hr
  have hlen := (mergeOthers_length canonical.id others s).1
  have hnext := (mergeOthers_length canonical.id others s).2
  -- translate the boolean novelty check into set-membership over the group
  have htrans : (hasNewEmail email
        (allLinked (mergeOthers canonical.id s others) canonical.id) ||
      hasNewPhone phone (allLinked (mergeOthers canonical.id s others) canonical.id)) = true ↔
      ((∃ e, email = some e ∧
          ¬∃ c ∈ allLinked (mergeOthers canonical.id s others) canonical.id,
            c.email = some e) ∨
       (∃ p, phone = some p ∧
          ¬∃ c ∈ allLinked (mergeOthers canonical.id s others) canonical.id,
            c.phoneNumber = some p)) := by
    rw [Bool.or_eq_true, hasNewEmail_iff, hasNewPhone_iff]
    constructor
    · rintro (⟨e, he, hmem⟩ | ⟨p, hp, hmem⟩)
      · refine Or.inl ⟨e, he, fun hex => hmem (existingEmails_mem.mpr ⟨hene e he, hex⟩)⟩
      · refine Or.inr ⟨p, hp, fun hex => hmem (existingPhones_mem.mpr ⟨hpne p hp, hex⟩)⟩
    · rintro (⟨e, he, hnex⟩ | ⟨p, hp, hnex⟩)
      · exact Or.inl ⟨e, he, fun hmem => hnex (existingEmails_mem.mp hmem).2⟩
      · exact Or.inr ⟨p, hp, fun hmem => hnex (existingPhones_mem.mp hmem).2⟩
  cases hcond : (hasNewEmail email
      (allLinked (mergeOthers canonical.id s others) canonical.id) ||
      hasNewPhone phone (allLinked (mergeOthers canonical.id s others) canonical.id)) with
  | true =>
    rw [identifyContact_matched_create hm hr hcond]
    have hsto : (createContact (mergeOthers canonical.id s others) email phone
        (some canonical.id) .secondary now).1.contacts =
        (mergeOthers canonical.id s others).contacts ++
          [⟨s.nextId, phone, email, some canonical.id, .secondary, now⟩] := by
      simp only [createContact, hnext]
    constructor
    · rw [show ((createContact (mergeOthers canonical.id s others) email phone
          (some canonical.id) .secondary now).1,
          buildResponse (createContact (mergeOthers canonical.id s others) email phone
            (some canonical.id) .secondary now).1 canonical).1 =
          (createContact (mergeOthers canonical.id s others) email phone
            (some canonical.id) .secondary now).1 from rfl, hsto]
      simp only [List.length_append, List.length_cons, List.length_nil, hlen]
      constructor
      · intro _; exact htrans.mp (by rw [hcond])
      · intro _; trivial
    · intro _
      exact hsto
  | false =>
    rw [identifyContact_matched_nocreate hm hr hcond]
    have hfalse : ¬ ((∃ e, email = some e ∧
          ¬∃ c ∈ allLinked (mergeOthers canonical.id s others) canonical.id,
            c.email = some e) ∨
       (∃ p, phone = some p ∧
          ¬∃ c ∈ allLinked (mergeOthers canonical.id s others) canonical.id,
            c.phoneNumber = some p)) := by
      intro h
      have := htrans.mpr h
      rw [hcond] at this
      cases this
    constructor
    · show (mergeOthers canonical.id s others).contacts.length = s.contacts.length + 1 ↔ _
      rw [hlen]
      constructor
      · intro h; omega
      · intro h; exact absurd h hfalse
    · show (mergeOthers canonical.id s others).contacts.length = s.contacts.length + 1 → _
      rw [hlen]
      intro h
      omega

theorem merge_effect {s : Store} {canonical : Contact} {others : List Contact}
    (hwf : StoreWF s)
    (hos : ∀ o ∈ others, o ∈ s.contacts ∧ o.linkedId = none)
    (hcid : canonical.id ∉ others.map (fun o => o.id))
    (hnodup : (others.map (fun o => o.id)).Nodup) :
    ∀ o ∈ others,
      (∃ r ∈ (mergeOthers canonical.id s others).contacts,
        r.id = o.id ∧ r.linkPrecedence = .secondary ∧ r.linkedId = some canonical.id) ∧
      (∀ m ∈ s.contacts, m.linkedId = some o.id →
        ∃ r ∈ (mergeOthers canonical.id s others).contacts,
          r.id = m.id ∧ r.linkedId = some canonical.id) := by
  have huniq := wf_unique hwf
  have hmap := mergeOthers_eq_map canonical.id others s huniq hos hcid hnodup
  intro o ho
  have hoid : o.id ∈ others.map (fun x => x.id) := List.mem_map.mpr ⟨o, ho, rfl⟩
  constructor
  · refine ⟨mergeFun canonical.id (others.map (fun x => x.id)) o, ?_, ?_, ?_, ?_⟩
    · rw [hmap]
      exact List.mem_map.mpr ⟨o, (hos o ho).1, rfl⟩
    · exact mergeFun_id _ _ _
    · unfold mergeFun
      rw [if_pos hoid]
    · unfold mergeFun
      rw [if_pos hoid]
  · intro m hm hml
    have hmid : m.id ∉ others.map (fun x => x.id) := by
      intro hmem
      obtain ⟨q, hq, hqid⟩ := List.mem_map.mp hmem
      have : m = q := huniq m hm q (hos q hq).1 hqid.symm
      rw [this, (hos q hq).2] at hml
      cases hml
    refine ⟨mergeFun canonical.id (others.map (fun x => x.id)) m, ?_, mergeFun_id _ _ _, ?_⟩
    · rw [hmap]
      exact List.mem_map.mpr ⟨m, hm, rfl⟩
    · unfold mergeFun
      rw [if_neg hmid, hml]
      simp [hoid]

/-- C3: whenever the matched records resolve to more than one distinct
primary, every non-canonical resolved primary ends the call as a secondary
with `linkedId` the canonical id, and every pre-existing child of such a
demoted primary is repointed at the canonical id and its id appears in the
returned `secondaryContactIds`. -/
theorem merge_demotes_and_repoints (s : Store) (email phone : Option String)
    (now : Nat) (canonical : Contact) (others : List Contact)
    (hwf : StoreWF s) (hinv : GroupInv s)
    (hr : resolvedPrimaries s email phone = canonical :: others) :
    ∀ o ∈ others,
      (∃ r ∈ (identifyContact s email phone now).1.contacts,
        r.id = o.id ∧ r.linkPrecedence = .secondary ∧ r.linkedId = some canonical.id) ∧
      (∀ m ∈ s.contacts, m.linkedId = some o.id →
        ∃ r ∈ (identifyContact s email phone now).1.contacts,
          r.id = m.id ∧ r.linkedId = some canonical.id ∧
          r.id ∈ (identifyContact s email phone now).2.secondaryContactIds) := by
  have hm : matchingContacts s email phone ≠ [] := resolvedPrimaries_ne_nil_of_match hr
  obtain ⟨hall, hnodup, hsorted, _⟩ := resolvedPrimaries_facts hwf hinv email phone
  rw [hr] at hall hnodup
  have hos : ∀ o ∈ others, o ∈ s.contacts ∧ o.linkedId = none :=
    fun o ho => hall o (List.mem_cons_of_mem _ ho)
  rw [List.map_cons] at hnodup
  have hcid : canonical.id ∉ others.map (fun o => o.id) := (List.nodup_cons.mp hnodup).1
  have hnodup' : (others.map (fun o => o.id)).Nodup := (List.nodup_cons.mp hnodup).2
  have heff := merge_effect hwf hos hcid hnodup'
  -- lift membership in the merged store to the final store and the response
  have hkey : ∀ t : Store × IdentifyResponse,
      identifyContact s email phone now = t →
      (∀ r ∈ (mergeOthers canonical.id s others).contacts, r ∈ t.1.contacts) ∧
      (t.2 = buildResponse t.1 canonical) := by
    intro t ht
    cases hcond : (hasNewEmail email
        (allLinked (mergeOthers canonical.id s others) canonical.id) ||
        hasNewPhone phone (allLinked (mergeOthers canonical.id s others) canonical.id)) with
    | false =>
      rw [identifyContact_matched_nocreate hm hr hcond] at ht
      rw [← ht]
      exact ⟨fun r hrm => hrm, rfl⟩
    | true =>
      rw [identifyContact_matched_create hm hr hcond] at ht
      rw [← ht]
      refine ⟨fun r hrm => ?_, rfl⟩
      show r ∈ (mergeOthers canonical.id s others).contacts ++ [_]
      exact List.mem_append_left _ hrm
  obtain ⟨hlift, hresp⟩ := hkey (identifyContact s email phone now) rfl
  intro o ho
  obtain ⟨⟨r1, hr1m, hr1id, hr1prec, hr1lid⟩, hchild⟩ := heff o ho
  refine ⟨⟨r1, hlift r1 hr1m, hr1id, hr1prec, hr1lid⟩, ?_⟩
  intro m hmm hml
  obtain ⟨r2, hr2m, hr2id, hr2lid⟩ := hchild m hmm hml
  have hr2fin : r2 ∈ (identifyContact s email phone now).1.contacts := hlift r2 hr2m
  refine ⟨r2, hr2fin, hr2id, hr2lid, ?_⟩
  rw [hresp]
  show r2.id ∈ (secondariesOf (identifyContact s email phone now).1 canonical.id).map
    (fun c => c.id)
  exact List.mem_map.mpr ⟨r2, secondariesOf_mem.mpr ⟨hr2fin, hr2lid⟩, rfl⟩

/-- C6: in every consolidated response, the primary's own (truthy) email and
phone come first; the email/phone lists are duplicate-free and consist
exactly of the primary's value plus its secondaries' values; the remaining
emails and phone numbers after the primary's own are the values of a
subsequence of the `createdAt`-sorted secondaries taken in that ascending
creation order; and `secondaryContactIds` is the ids of exactly the
secondaries of the group, in ascending creation order (`createdAt`, ties by
id since ids ascend through the store). -/
theorem buildResponse_ordering (s : Store) (p : Contact) (hwf : StoreWF s) :
    (∀ e, p.email = some e → e ≠ "" → (buildResponse s p).emails.head? = some e) ∧
    (∀ ph, p.phoneNumber = some ph → ph ≠ "" →
      (buildResponse s p).phoneNumbers.head? = some ph) ∧
    (buildResponse s p).emails.Nodup ∧ (buildResponse s p).phoneNumbers.Nodup ∧
    (∀ x, x ∈ (buildResponse s p).emails ↔ x ≠ "" ∧
      (p.email = some x ∨ ∃ c ∈ s.contacts, c.linkedId = some p.id ∧ c.email = some x)) ∧
    (∀ x, x ∈ (buildResponse s p).phoneNumbers ↔ x ≠ "" ∧
      (p.phoneNumber = some x ∨
        ∃ c ∈ s.contacts, c.linkedId = some p.id ∧ c.phoneNumber = some x)) ∧
    ((buildResponse s p).secondaryContactIds = (secondariesOf s p.id).map (fun c => c.id) ∧
      (secondariesOf s p.id).Pairwise CreatedBefore ∧
      (∀ c, c ∈ secondariesOf s p.id ↔ c ∈ s.contacts ∧ c.linkedId = some p.id)) ∧
    (∃ cs : List Contact, cs.Sublist (secondariesOf s p.id) ∧ cs.Pairwise CreatedBefore ∧
      (buildResponse s p).emails =
        (if truthy p.email then [p.email.getD ""] else []) ++
          cs.map (fun c => c.email.getD "")) ∧
    (∃ cs : List Contact, cs.Sublist (secondariesOf s p.id) ∧ cs.Pairwise CreatedBefore ∧
      (buildResponse s p).phoneNumbers =
        (if truthy p.phoneNumber then [p.phoneNumber.getD ""] else []) ++
          cs.map (fun c => c.phoneNumber.getD "")) := by
  have hinit_email : ∀ e, p.email = some e → e ≠ "" →
      (if truthy p.email then [p.email.getD ""] else []) = [e] := by
    intro e he hne
    rw [he]
    simp only [truthy, Option.getD_some]
    rw [if_pos (by simpa using hne)]
  have hinit_phone : ∀ ph, p.phoneNumber = some ph → ph ≠ "" →
      (if truthy p.phoneNumber then [p.phoneNumber.getD ""] else []) = [ph] := by
    intro ph hp hne
    rw [hp]
    simp only [truthy, Option.getD_some]
    rw [if_pos (by simpa using hne)]
  have hlex : (secondariesOf s p.id).Pairwise CreatedBefore :=
    sortByCreated_lex _ (List.Pairwise.sublist (List.filter_sublist _) hwf.1)
  refine ⟨?_, ?_, ?_, ?_, ?_, ?_, ⟨rfl, ?_, ?_⟩, ?_, ?_⟩
  · intro e he hne
    show (collectEmails (if truthy p.email then [p.email.getD ""] else [])
      (secondariesOf s p.id)).head? = some e
    rw [hinit_email e he hne, collectEmails_head _ _ (by simp)]
    rfl
  · intro ph hp hne
    show (collectPhones (if truthy p.phoneNumber then [p.phoneNumber.getD ""] else [])
      (secondariesOf s p.id)).head? = some ph
    rw [hinit_phone ph hp hne, collectPhones_head _ _ (by simp)]
    rfl
  · show (collectEmails (if truthy p.email then [p.email.getD ""] else [])
      (secondariesOf s p.id)).Nodup
    refine collectEmails_nodup _ _ ?_
    split
    · exact List.nodup_singleton _
    · exact List.nodup_nil
  · show (collectPhones (if truthy p.phoneNumber then [p.phoneNumber.getD ""] else [])
      (secondariesOf s p.id)).Nodup
    refine collectPhones_nodup _ _ ?_
    split
    · exact List.nodup_singleton _
    · exact List.nodup_nil
  · intro x
    show x ∈ collectEmails (if truthy p.email then [p.email.getD ""] else [])
      (secondariesOf s p.id) ↔ _
    rw [collectEmails_mem]
    constructor
    · rintro (hin | ⟨hne, c, hc, hce⟩)
      · cases he : p.email with
        | none => rw [he] at hin; simp [truthy] at hin
        | some e =>
          rw [he] at hin
          by_cases hee : e = ""
          · subst hee
            simp [truthy] at hin
          · simp only [truthy, Option.getD_some] at hin
            rw [if_pos (by simpa using hee)] at hin
            rw [List.mem_singleton.mp hin]
            exact ⟨hee, Or.inl rfl⟩
      · refine ⟨hne, Or.inr ⟨c, (secondariesOf_mem.mp hc).1, (secondariesOf_mem.mp hc).2, hce⟩⟩
    · rintro ⟨hne, he | ⟨c, hc, hclid, hce⟩⟩
      · left
        rw [hinit_email x he hne]
        exact List.mem_singleton.mpr rfl
      · right
        exact ⟨hne, c, secondariesOf_mem.mpr ⟨hc, hclid⟩, hce⟩
  · intro x
    show x ∈ collectPhones (if truthy p.phoneNumber then [p.phoneNumber.getD ""] else [])
      (secondariesOf s p.id) ↔ _
    rw [collectPhones_mem]
    constructor
    · rintro (hin | ⟨hne, c, hc, hce⟩)
      · cases he : p.phoneNumber with
        | none => rw [he] at hin; simp [truthy] at hin
        | some ph =>
          rw [he] at hin
          by_cases hee : ph = ""
          · subst hee
            simp [truthy] at hin
          · simp only [truthy, Option.getD_some] at hin
            rw [if_pos (by simpa using hee)] at hin
            rw [List.mem_singleton.mp hin]
            exact ⟨hee, Or.inl rfl⟩
      · refine ⟨hne, Or.inr ⟨c, (secondariesOf_mem.mp hc).1, (secondariesOf_mem.mp hc).2, hce⟩⟩
    · rintro ⟨hne, he | ⟨c, hc, hclid, hce⟩⟩
      · left
        rw [hinit_phone x he hne]
        exact List.mem_singleton.mpr rfl
      · right
        exact ⟨hne, c, secondariesOf_mem.mpr ⟨hc, hclid⟩, hce⟩
  · exact hlex
  · intro c
    exact secondariesOf_mem
  · obtain ⟨cs, hsub, heq⟩ := collectEmails_sublist
      (if truthy p.email then [p.email.getD ""] else []) (secondariesOf s p.id)
    exact ⟨cs, hsub, List.Pairwise.sublist hsub hlex, heq⟩
  · obtain ⟨cs, hsub, heq⟩ := collectPhones_sublist
      (if truthy p.phoneNumber then [p.phoneNumber.getD ""] else []) (secondariesOf s p.id)
    exact ⟨cs, hsub, List.Pairwise.sublist hsub hlex, heq⟩

/-- C4: a call whose provided values are all already known to the (single)
matched group writes nothing: the store is returned unchanged and the
response is the group's consolidated view.  This is exactly the state after
a first identical call, so repeating a call is a no-op.  `C` is the group's
root primary; every record matching the input belongs to `C`'s group and the
provided email/phone are already among the group's known values. -/
theorem identify_idempotent_on_known (s : Store) (C : Contact)
    (email phone : Option String) (now : Nat) (hwf : StoreWF s)
    (hC : C ∈ s.contacts) (hroot : C.linkedId = none)
    (hgroup : ∀ c ∈ s.contacts, matchesInput email phone c = true →
      c.id = C.id ∨ c.linkedId = some C.id)
    (hek : ∀ e, email = some e → e ∈ existingEmails (allLinked s C.id))
    (hpk : ∀ p, phone = some p → p ∈ existingPhones (allLinked s C.id))
    (hsome : email ≠ none ∨ phone ≠ none) :
    identifyContact s email phone now = (s, buildResponse s C) := by
  have huniq := wf_unique hwf
  -- at least one record matches
  have hm : matchingContacts s email phone ≠ [] := by
    have hexists : ∃ c ∈ s.contacts, matchesInput email phone c = true := by
      rcases hsome with he | hp
      · obtain ⟨e, rfl⟩ := Option.ne_none_iff_exists'.mp he
        obtain ⟨hene, c, hcall, hce⟩ := existingEmails_mem.mp (hek e rfl)
        refine ⟨c, (allLinked_mem.mp hcall).1, ?_⟩
        unfold matchesInput
        rw [Bool.or_eq_true, Bool.and_eq_true]
        exact Or.inl ⟨by simpa [truthy] using hene, by rw [hce]; simp⟩
      · obtain ⟨p, rfl⟩ := Option.ne_none_iff_exists'.mp hp
        obtain ⟨hpne, c, hcall, hcp⟩ := existingPhones_mem.mp (hpk p rfl)
        refine ⟨c, (allLinked_mem.mp hcall).1, ?_⟩
        unfold matchesInput
        rw [Bool.or_eq_true]
        refine Or.inr ?_
        rw [Bool.and_eq_true]
        exact ⟨by simpa [truthy] using hpne, by rw [hcp]; simp⟩
    obtain ⟨c, hc, hmatch⟩ := hexists
    intro hnil
    rw [matchingContacts] at hnil
    have hp := sortByCreated_perm (s.contacts.filter (matchesInput email phone))
    rw [hnil] at hp
    have hfil : s.contacts.filter (matchesInput email phone) = [] := hp.symm.eq_nil
    have hmem := List.mem_filter.mpr ⟨hc, hmatch⟩
    rw [hfil] at hmem
    exact List.not_mem_nil c hmem
  -- every matched record resolves to C
  have hres : ∀ c ∈ matchingContacts s email phone,
      findPrimaryContact s s.contacts.length c = C := by
    intro c hc
    obtain ⟨hcs, hcm⟩ := matchingContacts_mem.mp hc
    obtain ⟨n, hn⟩ : ∃ n, s.contacts.length = n + 1 := by
      have := List.length_pos.mpr (List.ne_nil_of_mem hC)
      exact ⟨s.contacts.length - 1, by omega⟩
    rcases hgroup c hcs hcm with hid | hlid
    · have hcC : c = C := huniq c hcs C hC hid
      rw [hcC, findPrimaryContact_of_root hroot]
    · rw [hn]
      have hfind : findById s C.id = some C := findById_of_mem hwf hC
      simp [findPrimaryContact, hlid, hfind, findPrimaryContact_of_root hroot]
  -- the resolved primaries are exactly [C]
  have hr : resolvedPrimaries s email phone = C :: [] := by
    obtain ⟨a, l, hml⟩ := List.exists_cons_of_ne_nil hm
    rw [resolvedPrimaries, hml,
      collectPrimaries_singleton (by rw [← hml]; exact hres)]
    rfl
  -- no new information
  have hcond : (hasNewEmail email (allLinked (mergeOthers C.id s []) C.id) ||
      hasNewPhone phone (allLinked (mergeOthers C.id s []) C.id)) = false := by
    rw [Bool.or_eq_false_iff]
    constructor
    · cases hemail : email with
      | none => rfl
      | some e =>
        show (!((existingEmails (allLinked s C.id)).contains e)) = false
        have := hek e hemail
        simp only [Bool.not_eq_false']
        simpa using this
    · cases hphone : phone with
      | none => rfl
      | some p =>
        show (!((existingPhones (allLinked s C.id)).contains p)) = false
        have := hpk p hphone
        simp only [Bool.not_eq_false']
        simpa using this
  exact identifyContact_matched_nocreate hm hr hcond

/-! ## Witnesses on concrete stores -/

/-- The spec's field-set novelty scenario: a group holding the pairings
(A, P1), (B, P1), (B, P2) — the pairing (A, P2) never existed as one record. -/
def novStore1 : Store := (identifyContact Store.empty (some "A") (some "P1") 0).1

def novStore2 : Store := (identifyContact novStore1 (some "B") (some "P1") 0).1

def novStore3 : Store := (identifyContact novStore2 (some "B") (some "P2") 0).1

def novCanonical : Contact := ⟨1, some "P1", some "A", none, .primary, 0⟩

theorem identify_creates_iff_field_novelty_witness :
    ((identifyContact novStore3 (some "A") (some "P2") 0).1.contacts.length =
        novStore3.contacts.length + 1 ↔
      ((∃ e, (some "A" : Option String) = some e ∧
          ¬∃ c ∈ allLinked (mergeOthers novCanonical.id novStore3 []) novCanonical.id,
            c.email = some e) ∨
       (∃ p, (some "P2" : Option String) = some p ∧
          ¬∃ c ∈ allLinked (mergeOthers novCanonical.id novStore3 []) novCanonical.id,
            c.phoneNumber = some p))) ∧
    ((identifyContact novStore3 (some "A") (some "P2") 0).1.contacts.length =
        novStore3.contacts.length + 1 →
      (identifyContact novStore3 (some "A") (some "P2") 0).1.contacts =
        (mergeOthers novCanonical.id novStore3 []).contacts ++
          [⟨novStore3.nextId, some "P2", some "A", some novCanonical.id, .secondary, 0⟩]) :=
  identify_creates_iff_field_novelty novStore3 (some "A") (some "P2") 0 novCanonical []
    (by decide)
    (by intro e he; injection he with h; subst h; decide)
    (by intro p hp; injection hp with h; subst h; decide)

/-- Merge scenario for C3: primary 1 (email A, `createdAt` 0), primary 2
(email B, phone Q1, `createdAt` 1) with its own secondary 3 (B, Q2). -/
def mrgStore1 : Store := (identifyContact Store.empty (some "A") none 0).1

def mrgStore2 : Store := (identifyContact mrgStore1 (some "B") (some "Q1") 1).1

def mrgStore3 : Store := (identifyContact mrgStore2 (some "B") (some "Q2") 2).1

def mrgCanonical : Contact := ⟨1, none, some "A", none, .primary, 0⟩

def mrgOther : Contact := ⟨2, some "Q1", some "B", none, .primary, 1⟩

def mrgChild : Contact := ⟨3, some "Q2", some "B", some 2, .secondary, 2⟩

theorem merge_demotes_and_repoints_witness :
    (∃ r ∈ (identifyContact mrgStore3 (some "A") (some "Q2") 3).1.contacts,
      r.id = mrgOther.id ∧ r.linkPrecedence = .secondary ∧
        r.linkedId = some mrgCanonical.id) ∧
    (∃ r ∈ (identifyContact mrgStore3 (some "A") (some "Q2") 3).1.contacts,
      r.id = mrgChild.id ∧ r.linkedId = some mrgCanonical.id ∧
        r.id ∈ (identifyContact mrgStore3 (some "A") (some "Q2") 3).2.secondaryContactIds) :=
  ⟨(merge_demotes_and_repoints mrgStore3 (some "A") (some "Q2") 3 mrgCanonical [mrgOther]
      (by decide) (by decide) (by decide) mrgOther (List.mem_singleton.mpr rfl)).1,
   (merge_demotes_and_repoints mrgStore3 (some "A") (some "Q2") 3 mrgCanonical [mrgOther]
      (by decide) (by decide) (by decide) mrgOther (List.mem_singleton.mpr rfl)).2
     mrgChild (by decide) (by decide)⟩

def knownStore : Store := (identifyContact Store.empty (some "K") (some "KP") 0).1

def knownC : Contact := ⟨1, some "KP", some "K", none, .primary, 0⟩

theorem identify_idempotent_on_known_witness :
    identifyContact knownStore (some "K") (some "KP") 5 =
      (knownStore, buildResponse knownStore knownC) :=
  identify_idempotent_on_known knownStore knownC (some "K") (some "KP") 5
    (by decide) (by decide) (by decide) (by decide)
    (by intro e he; injection he with h; subst h; decide)
    (by intro p hp; injection hp with h; subst h; decide)
    (Or.inl (by decide))

def respStore : Store :=
  ⟨[⟨1, some "p", some "a", none, .primary, 0⟩,
    ⟨2, some "q", some "b", some 1, .secondary, 1⟩], 3⟩

def respPrimary : Contact := ⟨1, some "p", some "a", none, .primary, 0⟩

theorem buildResponse_ordering_witness :
    (∀ e, respPrimary.email = some e → e ≠ "" →
      (buildResponse respStore respPrimary).emails.head? = some e) ∧
    (∀ ph, respPrimary.phoneNumber = some ph → ph ≠ "" →
      (buildResponse respStore respPrimary).phoneNumbers.head? = some ph) ∧
    (buildResponse respStore respPrimary).emails.Nodup ∧
    (buildResponse respStore respPrimary).phoneNumbers.Nodup ∧
    (∀ x, x ∈ (buildResponse respStore respPrimary).emails ↔ x ≠ "" ∧
      (respPrimary.email = some x ∨
        ∃ c ∈ respStore.contacts, c.linkedId = some respPrimary.id ∧ c.email = some x)) ∧
    (∀ x, x ∈ (buildResponse respStore respPrimary).phoneNumbers ↔ x ≠ "" ∧
      (respPrimary.phoneNumber = some x ∨
        ∃ c ∈ respStore.contacts, c.linkedId = some respPrimary.id ∧
          c.phoneNumber = some x)) ∧
    ((buildResponse respStore respPrimary).secondaryContactIds =
        (secondariesOf respStore respPrimary.id).map (fun c => c.id) ∧
      (secondariesOf respStore respPrimary.id).Pairwise CreatedBefore ∧
      (∀ c, c ∈ secondariesOf respStore respPrimary.id ↔
        c ∈ respStore.contacts ∧ c.linkedId = some respPrimary.id)) ∧
    (∃ cs : List Contact, cs.Sublist (secondariesOf respStore respPrimary.id) ∧
      cs.Pairwise CreatedBefore ∧
      (buildResponse respStore respPrimary).emails =
        (if truthy respPrimary.email then [respPrimary.email.getD ""] else []) ++
          cs.map (fun c => c.email.getD "")) ∧
    (∃ cs : List Contact, cs.Sublist (secondariesOf respStore respPrimary.id) ∧
      cs.Pairwise CreatedBefore ∧
      (buildResponse respStore respPrimary).phoneNumbers =
        (if truthy respPrimary.phoneNumber then [respPrimary.phoneNumber.getD ""] else []) ++
          cs.map (fun c => c.phoneNumber.getD "")) :=
  buildResponse_ordering respStore respPrimary (by decide)

theorem identify_no_match_creates_primary_witness :
    (identifyContact Store.empty (some "A") none 5).1.contacts =
      Store.empty.contacts ++ [⟨Store.empty.nextId, none, some "A", none, .primary, 5⟩] ∧
    (identifyContact Store.empty (some "A") none 5).2 =
      ⟨Store.empty.nextId,
        (if truthy (some "A") then [(some "A" : Option String).getD ""] else []),
        (if truthy (none : Option String) then [(none : Option String).getD ""] else []),
        []⟩ :=
  identify_no_match_creates_primary Store.empty (some "A") none 5 (by decide) (by decide)

/-- A store with a single record whose parent link dangles (id 99 absent). -/
def danglingStore : Store := ⟨[⟨5, none, some "x", some 99, .secondary, 0⟩], 100⟩

def danglingContact : Contact := ⟨5, none, some "x", some 99, .secondary, 0⟩

theorem findPrimaryContact_terminates_witness :
    IsResolvedRoot danglingStore (findPrimaryContact danglingStore 6 danglingContact) :=
  findPrimaryContact_terminates danglingStore (fun i => i)
    (by
      intro c hc pid p hlid hf
      rw [List.mem_singleton.mp hc] at hlid
      injection hlid with h
      subst h
      exact Option.noConfusion hf)
    danglingContact (by decide) 6 (by decide)
